import Mathlib

/-!
# CarlaBlueprintRegistry

A verification development for
`Unreal/CarlaUE4/Plugins/Carla/Source/Carla/Actor/CarlaBlueprintRegistry.cpp`:
the writer `AddToCarlaBlueprintRegistry`, the loader `LoadPropDefinitions`, and the two
size conversions `PropSizeTypeToString` / `StringToPropSizeType`.

Engine types are represented by plain data:

* `FString` is `String`.  Wherever the engine compares two strings as keys of a `TMap`
  (the name index `PropIndexes`, the field table of an `FJsonObject`, the name table of a
  `UEnum`), the comparison goes through a function `key : String → κ` that sends a string
  to its comparison class; `key := id` is verbatim comparison, `key := caseFold` is the
  comparison that ignores letter case.  File names are compared by `operator<` and
  searched for the token `Default` by `Contains`, which both ignore letter case.
* `TArray<FString>::Sort` is not stable, so the array it leaves is taken from the engine
  (`Engine.TArraySort`); where the order matters a theorem assumes that this array is a
  permutation of the input in ascending order of `operator<` (`SortsArray`).
* `TMap<FString, V>` is the list of its pairs in insertion order, `TArray<T>` is `List T`.
* A JSON value is a tree; shared pointers are replaced by values.  The accessors of the
  engine never fail: a value of the wrong type reads as the empty object, the empty array
  or the empty string, and so does an absent field.
* What the engine and the file system return (reflection lookup, file contents, parser,
  asset loader, file write) is collected in the structure `Engine`; every statement holds
  for all of its values.
-/

namespace CarlaBlueprintRegistry

/-! ## Constants of the source file -/

namespace CommonAttributes

/-- Model of `CommonAttributes::DEFAULT`. -/
def DEFAULT : String := "Default"

/-- Model of `CommonAttributes::DEFINITIONS`. -/
def DEFINITIONS : String := "definitions"

/-- Model of `CommonAttributes::PATH`: the project content directory followed by the fixed
sub-path. -/
def PATH (ProjectContentDir : String) : String := ProjectContentDir ++ "/Carla/Config/"

end CommonAttributes

namespace PropAttributes

/-- Model of `PropAttributes::REGISTRY_FORMAT`. -/
def REGISTRY_FORMAT : String := ".PropRegistry.json"

/-- Model of `PropAttributes::NAME`. -/
def NAME : String := "name"

/-- Model of `PropAttributes::MESH_PATH`. -/
def MESH_PATH : String := "path"

/-- Model of `PropAttributes::SIZE`. -/
def SIZE : String := "size"

end PropAttributes

/-! ## `TMap<FString, V>` -/

/-- Model of `TMap<FString, V>`: the pairs of the map, in insertion order. -/
abbrev TMap (V : Type) := List (String × V)

section Maps

variable {κ : Type} [DecidableEq κ] {V : Type}

/-- Model of `TMap::Find`: the value stored under a key that compares equal to `k`, if any. -/
def TMapFind (key : String → κ) : TMap V → String → Option V
  | [], _ => none
  | (k', v) :: m, k => if key k' = key k then some v else TMapFind key m k

/-- Model of `TMap::Add`: a pair whose key compares equal to `k` is replaced where it stands,
otherwise the new pair goes to the end. -/
def TMapAdd (key : String → κ) : TMap V → String → V → TMap V
  | [], k, v => [(k, v)]
  | (k', v') :: m, k, v =>
    if key k' = key k then (k, v) :: m else (k', v') :: TMapAdd key m k v

end Maps

/-! ## JSON values -/

/-- Model of `FJsonValue`.  A number carries the text the engine prints for it, which is all the
registry code observes of a number. -/
inductive FJsonValue where
  | null
  | boolean (b : Bool)
  | number (text : String)
  | string (s : String)
  | array (items : List FJsonValue)
  | object (fields : List (String × FJsonValue))

/-- Model of `FJsonObject`: its field table `Values`, a `TMap<FString, TSharedPtr<FJsonValue>>`. -/
abbrev FJsonObject := TMap FJsonValue

/-- Model of `FJsonValue::AsObject`: the object, or the empty object for a value of another type. -/
def AsObject : FJsonValue → FJsonObject
  | .object fields => fields
  | _ => []

/-- Model of `FJsonValue::AsString`: strings, numbers and booleans convert, everything else is
the empty string. -/
def AsString : FJsonValue → String
  | .string s => s
  | .number text => text
  | .boolean b => if b then "true" else "false"
  | _ => ""

section Json

variable {κ : Type} [DecidableEq κ]

/-- Model of `FJsonObject::GetStringField`: an absent field reads as the empty string. -/
def GetStringField (key : String → κ) (o : FJsonObject) (field : String) : String :=
  match TMapFind key o field with
  | some v => AsString v
  | none => ""

/-- Model of `FJsonObject::GetArrayField`: an absent field, or a field that is not an array, reads
as the empty array. -/
def GetArrayField (key : String → κ) (o : FJsonObject) (field : String) : List FJsonValue :=
  match TMapFind key o field with
  | some (.array items) => items
  | _ => []

/-- Model of `FJsonObject::SetStringField`. -/
def SetStringField (key : String → κ) (o : FJsonObject) (field value : String) :
    FJsonObject :=
  TMapAdd key o field (.string value)

/-- Model of `FJsonObject::SetArrayField`. -/
def SetArrayField (key : String → κ) (o : FJsonObject) (field : String)
    (items : List FJsonValue) : FJsonObject :=
  TMapAdd key o field (.array items)

end Json

/-! ## The size enum and its reflection data -/

/-- Model of `EPropSize`, an enum over `uint8`: a value is a number below 256. -/
abbrev EPropSize := Nat

/-- Model of `UEnum`: the reflection object of an enum, reduced to the names of its enumerators in
index order. -/
structure UEnum where
  Names : List String

section Enum

variable {κ : Type} [DecidableEq κ]

/-- Model of `UEnum::GetNameStringByIndex`: the name at a valid index, the empty string
otherwise. -/
def UEnum.GetNameStringByIndex (e : UEnum) (index : Int) : String :=
  if 0 ≤ index then e.Names.getD index.toNat "" else ""

/-- Position of the first name that compares equal to `s`, counted from `i`, or
`INDEX_NONE` (-1). -/
def indexByName (key : String → κ) : List String → String → Nat → Int
  | [], _, _ => -1
  | n :: names, s, i => if key n = key s then (i : Int) else indexByName key names s (i + 1)

/-- Model of `UEnum::GetIndexByName`: the index of the enumerator of that name, `INDEX_NONE` (-1)
when there is none. -/
def UEnum.GetIndexByName (key : String → κ) (e : UEnum) (s : String) : Int :=
  indexByName key e.Names s 0

/-- The cast `(EPropSize) index` of an `int32` to the `uint8` enum. -/
def castToEPropSize (index : Int) : EPropSize := (index % 256).toNat

/-- Model of `UCarlaBlueprintRegistry::PropSizeTypeToString`.  `FindObject` is the result of
`FindObject<UEnum>(ANY_PACKAGE, TEXT("EPropSize"), true)`. -/
def PropSizeTypeToString (FindObject : Option UEnum) (PropSizeType : EPropSize) : String :=
  match FindObject with
  | none => "unknown"
  | some ptr => ptr.GetNameStringByIndex (PropSizeType : Int)

/-- Model of `UCarlaBlueprintRegistry::StringToPropSizeType`.  `INVALID` is the value of
`EPropSize::INVALID`. -/
def StringToPropSizeType (key : String → κ) (FindObject : Option UEnum)
    (INVALID : EPropSize) (PropSize : String) : EPropSize :=
  match FindObject with
  | some EnumPtr => castToEPropSize (EnumPtr.GetIndexByName key PropSize)
  | none => INVALID

end Enum

/-! ## Prop records -/

/-- Model of `UStaticMesh`, reduced to what `GetPathName` returns for it. -/
structure UStaticMesh where
  PathName : String
  deriving DecidableEq

/-- Model of `FPropParameters {Name, Mesh, Size}`.  `M` is the type of the `Mesh` member: the
writer dereferences it, so there it is a mesh; the loader stores what `LoadObject`
returned, which may be null. -/
structure FPropParameters (M : Type) where
  Name : String
  Mesh : M
  Size : EPropSize
  deriving DecidableEq

/-! ## External collaborators -/

/-- Everything the two functions obtain from the engine and from the file system: the
comparison class of a string used as a key, the array that `TArray<FString>::Sort` leaves
for a given array, the result of looking up the reflection object of `EPropSize`, the value
of `EPropSize::INVALID`, the asset loader (null is `none`), the text of a file (`none` when
it cannot be loaded), the JSON reader (`none` when the text does not parse to an object),
the JSON writer, the file write (`true` when it succeeded), and the project content
directory.  The sort of the engine is not stable: which of two elements that compare equal
comes first is its own business, so it is taken as given, and the theorems that depend on
the order assume of it only that the result is a permutation of the array in ascending
order of `operator<` (`SortsArray`). -/
structure Engine (κ : Type) where
  key : String → κ
  TArraySort : List String → List String
  FindObject : Option UEnum
  INVALID : EPropSize
  LoadObject : String → Option UStaticMesh
  LoadFileToString : String → Option String
  Deserialize : String → Option FJsonObject
  Serialize : FJsonObject → String
  SaveStringToFile : String → String → Bool
  ProjectContentDir : String

section Writer

variable {κ : Type} [DecidableEq κ]

/-- The loop that records the position of every name of the base array (lines 61-68),
from position `i` on. -/
def buildPropIndexes (key : String → κ) : List FJsonValue → Nat → TMap Nat → TMap Nat
  | [], _, PropIndexes => PropIndexes
  | v :: rest, i, PropIndexes =>
    buildPropIndexes key rest (i + 1)
      (TMapAdd key PropIndexes (GetStringField key (AsObject v) PropAttributes.NAME) i)

/-- "Fill Prop Json" (lines 86-91): the three fields are set on `PropJsonObject`. -/
def fillPropJson (E : Engine κ) (PropJsonObject : FJsonObject)
    (PropParameter : FPropParameters UStaticMesh) : FJsonObject :=
  let withName := SetStringField E.key PropJsonObject PropAttributes.NAME PropParameter.Name
  let withPath :=
    SetStringField E.key withName PropAttributes.MESH_PATH PropParameter.Mesh.PathName
  SetStringField E.key withPath PropAttributes.SIZE
    (PropSizeTypeToString E.FindObject PropParameter.Size)

/-- One iteration of "Add Input Prop or Update Prop if already exists" (lines 72-105) on
the pair `(ResultPropJsonArray, PropIndexes)`.  The index only ever holds positions of the
array (`buildPropIndexes_IndexOK`, `addOrUpdateProp_IndexOK`), so the default of `getD` is
never read. -/
def addOrUpdateProp (E : Engine κ) (state : List FJsonValue × TMap Nat)
    (PropParameter : FPropParameters UStaticMesh) : List FJsonValue × TMap Nat :=
  match TMapFind E.key state.2 PropParameter.Name with
  | some PropIndex =>
    (state.1.set PropIndex
        (.object (fillPropJson E (AsObject (state.1.getD PropIndex .null)) PropParameter)),
      state.2)
  | none =>
    (state.1 ++ [.object (fillPropJson E [] PropParameter)],
      TMapAdd E.key state.2 PropParameter.Name state.1.length)

/-- The array and the index the merge loop starts from (lines 55-69): those of the parsed
base document, or empty ones when the base did not parse. -/
def initialProps (E : Engine κ) (parsed : Option FJsonObject) : List FJsonValue × TMap Nat :=
  match parsed with
  | some JsonObject =>
    (GetArrayField E.key JsonObject CommonAttributes.DEFINITIONS,
      buildPropIndexes E.key (GetArrayField E.key JsonObject CommonAttributes.DEFINITIONS) 0 [])
  | none => ([], [])

/-- Model of `ResultPropJsonArray` when the merge loop ends (line 105). -/
def mergeProps (E : Engine κ) (parsed : Option FJsonObject)
    (PropParametersArray : List (FPropParameters UStaticMesh)) : List FJsonValue :=
  (PropParametersArray.foldl (addOrUpdateProp E) (initialProps E parsed)).1

/-- The document handed to the serializer (lines 52-107): the parsed base, or the empty
object when the base did not parse, with the merged array set under `definitions`. -/
def mergedDocument (E : Engine κ) (parsed : Option FJsonObject)
    (PropParametersArray : List (FPropParameters UStaticMesh)) : FJsonObject :=
  SetArrayField E.key (parsed.getD []) CommonAttributes.DEFINITIONS
    (mergeProps E parsed PropParametersArray)

/-- Model of `DefaultPropFilePath` (lines 47-48). -/
def DefaultPropFilePath (E : Engine κ) : String :=
  CommonAttributes.PATH E.ProjectContentDir ++ CommonAttributes.DEFAULT ++
    PropAttributes.REGISTRY_FORMAT

/-- The base document as the writer sees it (lines 49-58): the text of the default file,
empty when it could not be loaded, run through the JSON reader. -/
def parsedBase (E : Engine κ) : Option FJsonObject :=
  E.Deserialize ((E.LoadFileToString (DefaultPropFilePath E)).getD "")

/-- The text passed to `SaveStringToFile` (lines 109-115). -/
def OutputString (E : Engine κ) (PropParametersArray : List (FPropParameters UStaticMesh)) :
    String :=
  E.Serialize (mergedDocument E (parsedBase E) PropParametersArray)

/-- Model of `UCarlaBlueprintRegistry::AddToCarlaBlueprintRegistry`.  The function is
`void`: the result of `SaveStringToFile` is computed and dropped. -/
def AddToCarlaBlueprintRegistry (E : Engine κ)
    (PropParametersArray : List (FPropParameters UStaticMesh)) : Unit :=
  let _saved := E.SaveStringToFile (OutputString E PropParametersArray) (DefaultPropFilePath E)
  ()

end Writer

section Loader

variable {κ : Type} [DecidableEq κ]

/-- The characters of a string with the letters `A` to `Z` replaced by `a` to `z`: what the
comparisons of `FString` that ignore case look at. -/
def caseFold (s : String) : List Char := s.data.map Char.toLower

/-- Model of `FString::Contains` as the loader calls it, with the default search case
`ESearchCase::IgnoreCase`. -/
def FStringContains (s sub : String) : Bool :=
  (caseFold s).tails.any (fun t => (caseFold sub).isPrefixOf t)

/-- Lexicographic comparison of two character sequences by code point. -/
def lexLess : List Char → List Char → Bool
  | _, [] => false
  | [], _ :: _ => true
  | a :: s, b :: t => decide (a.toNat < b.toNat) || (decide (a.toNat = b.toNat) && lexLess s t)

/-- Model of `FString::operator<`, the comparison `TArray::Sort` uses: `Stricmp`, which
ignores case. -/
def FStringLess (a b : String) : Bool := lexLess (caseFold a) (caseFold b)

/-- The search loop (lines 136-144): the first file name that contains `Default`, and the
array with that element removed; `none` when `bDefaultFileFound` stays false. -/
def removeDefaultFile : List String → Option (String × List String)
  | [] => none
  | f :: rest =>
    if FStringContains f CommonAttributes.DEFAULT then some (f, rest)
    else
      match removeDefaultFile rest with
      | some (DefaultFileName, others) => some (DefaultFileName, f :: others)
      | none => none

/-- "Sort and place Default File First" (lines 132-148). -/
def sortDefaultFirst (E : Engine κ) (PropFileNames : List String) : List String :=
  match removeDefaultFile (E.TArraySort PropFileNames) with
  | some (DefaultFileName, others) => DefaultFileName :: others
  | none => E.TArraySort PropFileNames

/-- The three fields read from one JSON entry (lines 169-176): name, mesh path, size. -/
def readPropFields (E : Engine κ) (PropJsonValue : FJsonValue) :
    String × String × EPropSize :=
  (GetStringField E.key (AsObject PropJsonValue) PropAttributes.NAME,
    GetStringField E.key (AsObject PropJsonValue) PropAttributes.MESH_PATH,
    StringToPropSizeType E.key E.FindObject E.INVALID
      (GetStringField E.key (AsObject PropJsonValue) PropAttributes.SIZE))

/-- "Build Prop Parameter from Json" (lines 168-178). -/
def buildPropParameter (E : Engine κ) (PropJsonValue : FJsonValue) :
    FPropParameters (Option UStaticMesh) :=
  { Name := (readPropFields E PropJsonValue).1
    Mesh := E.LoadObject (readPropFields E PropJsonValue).2.1
    Size := (readPropFields E PropJsonValue).2.2 }

/-- "Add or Update" (lines 180-189) on the pair `(PropParametersArray, PropIndexes)`;
`Contains` followed by `operator[]` is one `Find`. -/
def addOrUpdateParams (key : String → κ)
    (state : List (FPropParameters (Option UStaticMesh)) × TMap Nat)
    (Params : FPropParameters (Option UStaticMesh)) :
    List (FPropParameters (Option UStaticMesh)) × TMap Nat :=
  match TMapFind key state.2 Params.Name with
  | some PropIndex => (state.1.set PropIndex Params, state.2)
  | none => (state.1 ++ [Params], TMapAdd key state.2 Params.Name state.1.length)

/-- The entries of the `definitions` array of one file (lines 157-164): none when the file
cannot be loaded or does not parse. -/
def fileDefinitions (E : Engine κ) (FileName : String) : List FJsonValue :=
  match E.LoadFileToString FileName with
  | some FileJsonContent =>
    match E.Deserialize FileJsonContent with
    | some JsonParsed => GetArrayField E.key JsonParsed CommonAttributes.DEFINITIONS
    | none => []
  | none => []

/-- The body of the loop over the files (lines 155-193). -/
def loadFile (E : Engine κ)
    (state : List (FPropParameters (Option UStaticMesh)) × TMap Nat) (FileName : String) :
    List (FPropParameters (Option UStaticMesh)) × TMap Nat :=
  (fileDefinitions E FileName).foldl
    (fun st PropJsonValue => addOrUpdateParams E.key st (buildPropParameter E PropJsonValue))
    state

/-- Model of `PropParametersArray` as it is passed to `MakePropDefinitions` (line 195), for the file
names `PropFileNames` returned by `FindFilesRecursive`. -/
def loadedProps (E : Engine κ) (PropFileNames : List String) :
    List (FPropParameters (Option UStaticMesh)) :=
  ((sortDefaultFirst E PropFileNames).foldl (loadFile E) ([], [])).1

/-- Model of `UCarlaBlueprintRegistry::LoadPropDefinitions`: the merged records go to the definition
builder together with the output array. -/
def LoadPropDefinitions {D : Type} (E : Engine κ)
    (MakePropDefinitions : List (FPropParameters (Option UStaticMesh)) → D → D)
    (FindFilesRecursive : String → String → List String) (Definitions : D) : D :=
  MakePropDefinitions
    (loadedProps E
      (FindFilesRecursive (CommonAttributes.PATH E.ProjectContentDir)
        ("*" ++ PropAttributes.REGISTRY_FORMAT)))
    Definitions

end Loader

/-! ## Auxiliary definitions for the proofs -/

section Auxiliary

variable {κ : Type} [DecidableEq κ]

/-- Position of the last occurrence of `c` in `ks`. -/
def lastPos (c : κ) : List κ → Option Nat
  | [] => none
  | d :: ks =>
    match lastPos c ks with
    | some i => some (i + 1)
    | none => if d = c then some 0 else none

/-- The index agrees with the array: every name resolves to the last position at which a
key comparing equal to it stands. -/
def IndexOK (key : String → κ) (ks : List κ) (idx : TMap Nat) : Prop :=
  ∀ k, TMapFind key idx k = lastPos (key k) ks

/-- How the sequence of keys changes when one record of key `c` is merged. -/
def keyStep (ks : List κ) (c : κ) : List κ :=
  match lastPos c ks with
  | some _ => ks
  | none => ks ++ [c]

/-- Records of the loader. -/
abbrev LoadedProp := FPropParameters (Option UStaticMesh)

/-- The comparison class of the name of a record. -/
def nameKey {M : Type} (key : String → κ) (r : FPropParameters M) : κ := key r.Name

/-- The array after one "Add or Update", in terms of the array alone. -/
def upsertParams (key : String → κ) (arr : List LoadedProp) (p : LoadedProp) :
    List LoadedProp :=
  match lastPos (key p.Name) (arr.map (nameKey key)) with
  | some i => arr.set i p
  | none => arr ++ [p]

/-- The records of one file, in the order of its `definitions` array. -/
def fileRecords (E : Engine κ) (FileName : String) : List LoadedProp :=
  (fileDefinitions E FileName).map (buildPropParameter E)

/-- The records of all files, concatenated in processing order. -/
def mergeInput (E : Engine κ) (PropFileNames : List String) : List LoadedProp :=
  (sortDefaultFirst E PropFileNames).flatMap (fileRecords E)

/-- A record carries the name `n`, as names are compared by the index. -/
def sameName {M : Type} (key : String → κ) (n : String) (r : FPropParameters M) : Bool :=
  decide (key r.Name = key n)

/-- A file name contains the token `Default`, in any letter case. -/
def isDefaultFile (f : String) : Bool := FStringContains f CommonAttributes.DEFAULT

/-- The array is in ascending order of `operator<`: no element is less than one that stands
before it. -/
def Ascending (sorted : List String) : Prop :=
  sorted.Pairwise (fun a b => FStringLess b a = false)

/-- What the theorems about the order assume of the sort, for one array: it leaves a
permutation of the array in ascending order of `operator<`. -/
def SortsArray (E : Engine κ) (PropFileNames : List String) : Prop :=
  (E.TArraySort PropFileNames).Perm PropFileNames ∧ Ascending (E.TArraySort PropFileNames)

/-- No two different paths of the list differ only in letter case, that is, compare equal
under `operator<`. -/
def NoTies (PropFileNames : List String) : Prop :=
  ∀ a ∈ PropFileNames, ∀ b ∈ PropFileNames, caseFold a = caseFold b → a = b

/-- The verbatim substring test: `sub` occurs in `s` with the same letter case. -/
def containsVerbatim (s sub : String) : Bool :=
  s.data.tails.any (fun t => sub.data.isPrefixOf t)

/-- The paths in lexicographic order of their characters (by code point, so that every
upper-case letter precedes every lower-case letter). -/
def lexicographicOrder (PropFileNames : List String) : List String :=
  PropFileNames.insertionSort (fun a b => lexLess b.data a.data = false)

/-- The processing order in the words of the specification, read verbatim: the first path,
in lexicographic order, that contains the token `Default`, followed by all remaining paths
in lexicographic order; the lexicographically sorted list when no path contains it. -/
def statedOrder (PropFileNames : List String) : List String :=
  match (lexicographicOrder PropFileNames).find?
      (fun f => containsVerbatim f CommonAttributes.DEFAULT) with
  | some d => d :: (lexicographicOrder PropFileNames).erase d
  | none => lexicographicOrder PropFileNames

/-- The three field names of a prop are pairwise different as keys of a JSON object. -/
def FieldKeysDistinct (key : String → κ) : Prop :=
  key PropAttributes.NAME ≠ key PropAttributes.MESH_PATH ∧
    key PropAttributes.NAME ≠ key PropAttributes.SIZE ∧
    key PropAttributes.MESH_PATH ≠ key PropAttributes.SIZE

/-- The comparison class of the name of an entry of the `definitions` array, as the writer
reads it when it builds the index. -/
def entryKey (key : String → κ) (v : FJsonValue) : κ :=
  key (GetStringField key (AsObject v) PropAttributes.NAME)

/-- The array after one "Add or Update" of the writer, in terms of the array alone. -/
def upsertProp (E : Engine κ) (arr : List FJsonValue) (p : FPropParameters UStaticMesh) :
    List FJsonValue :=
  match lastPos (E.key p.Name) (arr.map (entryKey E.key)) with
  | some i => arr.set i (.object (fillPropJson E (AsObject (arr.getD i .null)) p))
  | none => arr ++ [.object (fillPropJson E [] p)]

/-- The `definitions` array the writer starts from. -/
def baseDefinitions (E : Engine κ) (parsed : Option FJsonObject) : List FJsonValue :=
  GetArrayField E.key (parsed.getD []) CommonAttributes.DEFINITIONS

/-- The last record of `X` whose name has the comparison class `c`. -/
def lastRecord (key : String → κ) (c : κ) (X : List (FPropParameters UStaticMesh)) :
    Option (FPropParameters UStaticMesh) :=
  X.reverse.find? (fun q => decide (key q.Name = c))

/-- An entry filled with the last record of `X` that carries its name. -/
def refillEntry (E : Engine κ) (X : List (FPropParameters UStaticMesh)) (e : FJsonValue) :
    FJsonValue :=
  match lastRecord E.key (entryKey E.key e) X with
  | some q => .object (fillPropJson E (AsObject e) q)
  | none => e

/-- Every entry that stands at the last position of its name is filled with the last
record of `X` that carries the name; the other entries stay. -/
def refill (E : Engine κ) (X : List (FPropParameters UStaticMesh)) :
    List FJsonValue → List FJsonValue
  | [] => []
  | e :: es =>
    (if entryKey E.key e ∈ es.map (entryKey E.key) then e else refillEntry E X e) ::
      refill E X es

/-- The elements of `cs`, each once, in the order of their first appearance. -/
def firstKeys {α : Type} [DecidableEq α] : List α → List α
  | [] => []
  | c :: cs => c :: (firstKeys cs).filter (fun d => decide (d ≠ c))

/-- The name of an entry of the `definitions` array, as the writer reads it. -/
def entryName (key : String → κ) (v : FJsonValue) : String :=
  GetStringField key (AsObject v) PropAttributes.NAME

/-- A field name is none of `name`, `path` and `size`, as field names are compared. -/
def isOtherField (key : String → κ) (field : String) : Bool :=
  decide (key field ≠ key PropAttributes.NAME ∧ key field ≠ key PropAttributes.MESH_PATH ∧
    key field ≠ key PropAttributes.SIZE)

/-- The fields of a JSON object other than `name`, `path` and `size`, in their order. -/
def otherFields (key : String → κ) (o : FJsonObject) : FJsonObject :=
  o.filter (fun e => isOtherField key e.1)

/-- The JSON object of a new entry: the three fields of the record, in the order in which
they are set. -/
def propJson (E : Engine κ) (q : FPropParameters UStaticMesh) : FJsonObject :=
  [(PropAttributes.NAME, .string q.Name),
    (PropAttributes.MESH_PATH, .string q.Mesh.PathName),
    (PropAttributes.SIZE, .string (PropSizeTypeToString E.FindObject q.Size))]

end Auxiliary

/-! ## Example data -/

/-- An enum table for the examples: the sizes in declaration order. -/
def demoEnum : UEnum := ⟨["Tiny", "Small", "Medium", "Big", "Huge", "SIZE", "INVALID"]⟩

/-- A JSON entry with the three fields of a prop. -/
def demoEntry (name path size : String) : FJsonValue :=
  .object [("name", .string name), ("path", .string path), ("size", .string size)]

/-- A registry document with the given entries. -/
def demoDocument (entries : List FJsonValue) : FJsonObject :=
  [("definitions", .array entries)]

/-- The scan of the engine's sort over a short range: `Max` starts at the first element and
moves to every later `Item` with `Max < Item`; the result is the position at which it
ends, the first of the largest elements. -/
def scanMax (Max : String) (MaxPos ItemPos : Nat) : List String → Nat
  | [] => MaxPos
  | Item :: rest =>
    if FStringLess Max Item then scanMax Item ItemPos (ItemPos + 1) rest
    else scanMax Max MaxPos (ItemPos + 1) rest

/-- Model of `Exchange` on two positions of an array. -/
def Exchange (l : List String) (i j : Nat) : List String :=
  (l.set i (l.getD j "")).set j (l.getD i "")

/-- The loop of the engine's sort over a short range: while the range has more than one
element, the element found by the scan is exchanged with the last one and the range
shrinks by that last position.  The first argument bounds the number of rounds. -/
def bubbleSort : Nat → List String → List String
  | 0, l => l
  | _ + 1, [] => []
  | n + 1, first :: rest =>
    if rest = [] then [first]
    else
      bubbleSort n ((Exchange (first :: rest) (scanMax first 0 1 rest) rest.length).take
          rest.length) ++
        (Exchange (first :: rest) (scanMax first 0 1 rest) rest.length).drop rest.length

/-- A sort for the examples, after the way the engine sorts an array of at most eight
elements.  It is not stable: a pair of paths that differ only in case leaves it
swapped. -/
def shortArraySort (l : List String) : List String := bubbleSort l.length l

/-- An engine for the examples: verbatim comparison of keys, files given by a table from
path to text, the JSON reader given by a table from text to document. -/
def demoEngine (disk : List (String × String)) (codec : List (String × FJsonObject))
    (saveOk : Bool) : Engine String :=
  { key := id
    TArraySort := shortArraySort
    FindObject := some demoEnum
    INVALID := 6
    LoadObject := fun path => if path = "" then none else some ⟨path⟩
    LoadFileToString := fun path => disk.lookup path
    Deserialize := fun text => codec.lookup text
    Serialize := fun _ => "json"
    SaveStringToFile := fun _ _ => saveOk
    ProjectContentDir := "Content" }

/-- The path of the default registry file under the content directory `Content`. -/
def demoDefaultPath : String := "Content/Carla/Config/Default.PropRegistry.json"

/-- A user registry file that sorts after the default file. -/
def demoUserPath : String := "Content/Carla/Config/user.PropRegistry.json"

/-- A user registry file whose name contains `Default` and sorts before the default file. -/
def demoEarlyPath : String := "Content/Carla/Config/ADefault.PropRegistry.json"

/-- The default file defines `bench` as `Small`, the user file defines it as `Big`. -/
def benchEngine (userPath : String) : Engine String :=
  demoEngine [(demoDefaultPath, "default text"), (userPath, "user text")]
    [("default text", demoDocument [demoEntry "bench" "/Game/Bench" "Small"]),
      ("user text", demoDocument [demoEntry "bench" "/Game/Bench" "Big"])]
    true

/-- The default file defines `bench` and `tree`, the user file defines `lamp` and then
`bench` again. -/
def orderEngine : Engine String :=
  demoEngine [(demoDefaultPath, "default text"), (demoUserPath, "user text")]
    [("default text",
        demoDocument
          [demoEntry "bench" "/Game/Bench" "Small", demoEntry "tree" "/Game/Tree" "Huge"]),
      ("user text",
        demoDocument
          [demoEntry "lamp" "/Game/Lamp" "Tiny", demoEntry "bench" "/Game/Bench2" "Big"])]
    true

/-- A user registry file without the token `Default` in its name. -/
def demoExtraPath : String := "Content/Carla/Config/Extra.PropRegistry.json"

/-- A user registry file whose name contains `Default` and sorts after the default file. -/
def demoLatePath : String := "Content/Carla/Config/MyDefault.PropRegistry.json"

/-- The default file is on disk but does not parse; `Extra` defines `bench` as `Big`,
`MyDefault` defines it as `Small`. -/
def brokenDefaultEngine : Engine String :=
  demoEngine
    [(demoDefaultPath, "not json"), (demoExtraPath, "extra text"), (demoLatePath, "late text")]
    [("extra text", demoDocument [demoEntry "bench" "/Game/Bench" "Big"]),
      ("late text", demoDocument [demoEntry "bench" "/Game/Bench" "Small"])]
    true

/-- A base document that holds the name `bench` twice. -/
def duplicateBase : FJsonObject :=
  demoDocument
    [demoEntry "bench" "/Game/Bench" "Small", demoEntry "bench" "/Game/Bench" "Medium"]

/-- A base document with the names `bench` and `tree`; the entry `tree` carries the extra
field `tags`. -/
def taggedBase : FJsonObject :=
  demoDocument
    [demoEntry "bench" "/Game/Bench" "Small",
      .object [("name", .string "tree"), ("tags", .string "park"),
        ("path", .string "/Game/Tree"), ("size", .string "Huge")]]

/-- A registry file whose name begins with an upper-case `B`. -/
def demoUpperBPath : String := "Content/Carla/Config/B.PropRegistry.json"

/-- A registry file whose name begins with an upper-case `A`. -/
def demoUpperAPath : String := "Content/Carla/Config/A.PropRegistry.json"

/-- A registry file whose name begins with a lower-case `a`. -/
def demoLowerAPath : String := "Content/Carla/Config/a.PropRegistry.json"

/-- A registry file whose name contains `default` in lower case only. -/
def demoLowerDefaultPath : String := "Content/Carla/Config/mydefault.PropRegistry.json"

/-- Two files whose paths differ only in case: `A` defines `bench` as `Small`, `a` defines
it as `Big`. -/
def caseTieEngine : Engine String :=
  demoEngine [(demoUpperAPath, "upper text"), (demoLowerAPath, "lower text")]
    [("upper text", demoDocument [demoEntry "bench" "/Game/Bench" "Small"]),
      ("lower text", demoDocument [demoEntry "bench" "/Game/Bench" "Big"])]
    true

/-- An engine for the examples that compares keys ignoring case, as the engine compares
the `FString` keys of a `TMap`; the rest is as in `demoEngine`. -/
def foldEngine (disk : List (String × String)) (codec : List (String × FJsonObject)) :
    Engine (List Char) :=
  { key := caseFold
    TArraySort := shortArraySort
    FindObject := some demoEnum
    INVALID := 6
    LoadObject := fun path => if path = "" then none else some ⟨path⟩
    LoadFileToString := fun path => disk.lookup path
    Deserialize := fun text => codec.lookup text
    Serialize := fun _ => "json"
    SaveStringToFile := fun _ _ => true
    ProjectContentDir := "Content" }

/-- The default file defines `Bench` as `Small`, the user file defines `bench` as `Big`;
keys are compared ignoring case. -/
def spellingEngine : Engine (List Char) :=
  foldEngine [(demoDefaultPath, "default text"), (demoUserPath, "user text")]
    [("default text", demoDocument [demoEntry "Bench" "/Game/Bench" "Small"]),
      ("user text", demoDocument [demoEntry "bench" "/Game/Bench" "Big"])]

/-! ## Facts about `TMap` -/

section MapFacts

variable {κ : Type} [DecidableEq κ] {V : Type}

theorem TMapFind_TMapAdd (key : String → κ) (m : TMap V) (k : String) (v : V) (k' : String) :
    TMapFind key (TMapAdd key m k v) k' =
      if key k = key k' then some v else TMapFind key m k' := by
  induction m with
  | nil => simp [TMapAdd, TMapFind]
  | cons e m ih =>
    obtain ⟨a, b⟩ := e
    by_cases h : key a = key k
    · by_cases h' : key k = key k'
      · rw [TMapAdd, if_pos h, TMapFind, if_pos h', if_pos h']
      · have h'' : ¬ key a = key k' := fun e => h' (h ▸ e)
        rw [TMapAdd, if_pos h, TMapFind, if_neg h', if_neg h', TMapFind, if_neg h'']
    · by_cases h' : key a = key k'
      · have h'' : ¬ key k = key k' := fun e => h (h'.trans e.symm)
        rw [TMapAdd, if_neg h, TMapFind, if_pos h', if_neg h'', TMapFind, if_pos h']
      · rw [TMapAdd, if_neg h, TMapFind, if_neg h', ih, TMapFind, if_neg h']

theorem TMapAdd_TMapAdd (key : String → κ) (m : TMap V) (k : String) (v w : V) :
    TMapAdd key (TMapAdd key m k v) k w = TMapAdd key m k w := by
  induction m with
  | nil => simp [TMapAdd]
  | cons e m ih =>
    obtain ⟨a, b⟩ := e
    by_cases h : key a = key k
    · simp [TMapAdd, h]
    · simp [TMapAdd, h, ih]

theorem TMapAdd_filter (key : String → κ) (m : TMap V) (k : String) (v : V) :
    (TMapAdd key m k v).filter (fun e => decide (key e.1 ≠ key k)) =
      m.filter (fun e => decide (key e.1 ≠ key k)) := by
  induction m with
  | nil => simp [TMapAdd]
  | cons e m ih =>
    obtain ⟨a, b⟩ := e
    by_cases h : key a = key k
    · simp [TMapAdd, h, List.filter_cons]
    · rw [TMapAdd, if_neg h, List.filter_cons, List.filter_cons, ih]

end MapFacts

/-! ## Positions of keys -/

section Positions

variable {κ : Type} [DecidableEq κ]

theorem lastPos_cons_of_some {c d : κ} {ks : List κ} {i : Nat} (h : lastPos c ks = some i) :
    lastPos c (d :: ks) = some (i + 1) := by
  rw [lastPos, h]

theorem lastPos_cons_of_none {c d : κ} {ks : List κ} (h : lastPos c ks = none) :
    lastPos c (d :: ks) = if d = c then some 0 else none := by
  rw [lastPos, h]

theorem lastPos_eq_none_iff (c : κ) (ks : List κ) : lastPos c ks = none ↔ c ∉ ks := by
  induction ks with
  | nil => simp [lastPos]
  | cons d ks ih =>
    cases h : lastPos c ks with
    | some i =>
      have hc : c ∈ ks := by
        by_contra hc
        rw [ih.2 hc] at h
        cases h
      rw [lastPos_cons_of_some h]
      simp [hc]
    | none =>
      have hc : c ∉ ks := ih.1 h
      rw [lastPos_cons_of_none h]
      by_cases hd : d = c
      · simp [hd]
      · simp [hd, hc, Ne.symm hd]

theorem lastPos_getElem? {c : κ} {ks : List κ} {i : Nat} (h : lastPos c ks = some i) :
    ks[i]? = some c := by
  induction ks generalizing i with
  | nil => simp [lastPos] at h
  | cons d ks ih =>
    cases h' : lastPos c ks with
    | some j =>
      rw [lastPos_cons_of_some h'] at h
      cases h
      simpa using ih h'
    | none =>
      rw [lastPos_cons_of_none h'] at h
      by_cases hd : d = c
      · rw [if_pos hd] at h
        cases h
        simp [hd]
      · rw [if_neg hd] at h
        cases h

theorem lastPos_lt {c : κ} {ks : List κ} {i : Nat} (h : lastPos c ks = some i) :
    i < ks.length := by
  have h' := lastPos_getElem? h
  by_contra hlt
  rw [List.getElem?_eq_none (by omega)] at h'
  cases h'

theorem lastPos_append_singleton (c d : κ) (ks : List κ) :
    lastPos c (ks ++ [d]) = if d = c then some ks.length else lastPos c ks := by
  induction ks with
  | nil => simp [lastPos]
  | cons e ks ih =>
    rw [List.cons_append, lastPos, ih]
    by_cases hd : d = c
    · simp [hd]
    · rw [if_neg hd, if_neg hd, lastPos]

theorem set_eq_self_of_getElem? {α : Type} {l : List α} {i : Nat} {a : α}
    (h : l[i]? = some a) : l.set i a = l := by
  induction l generalizing i with
  | nil => simp
  | cons b l ih =>
    cases i with
    | zero => simp at h; simp [h]
    | succ i => simp at h; simp [ih h]

theorem IndexOK_nil (key : String → κ) : IndexOK key [] [] := by
  intro k
  simp [TMapFind, lastPos]

theorem IndexOK_append (key : String → κ) {ks : List κ} {idx : TMap Nat}
    (h : IndexOK key ks idx) (k : String) :
    IndexOK key (ks ++ [key k]) (TMapAdd key idx k ks.length) := by
  intro k'
  rw [TMapFind_TMapAdd, lastPos_append_singleton, h k']

theorem keyStep_nodup {ks : List κ} (h : ks.Nodup) (c : κ) : (keyStep ks c).Nodup := by
  unfold keyStep
  cases hc : lastPos c ks with
  | some i => simpa using h
  | none =>
    have : c ∉ ks := (lastPos_eq_none_iff c ks).1 hc
    simp only
    rw [List.nodup_append]
    refine ⟨h, List.nodup_singleton c, ?_⟩
    intro x hx hx'
    simp at hx'
    exact this (hx' ▸ hx)

theorem foldl_keyStep_nodup {ks : List κ} (h : ks.Nodup) (cs : List κ) :
    (cs.foldl keyStep ks).Nodup := by
  induction cs generalizing ks with
  | nil => simpa using h
  | cons c cs ih => exact ih (keyStep_nodup h c)

end Positions

/-! ## The loader fold -/

section LoaderFacts

variable {κ : Type} [DecidableEq κ]

theorem addOrUpdateParams_fst (key : String → κ) (state : List LoadedProp × TMap Nat)
    (p : LoadedProp) (h : IndexOK key (state.1.map (nameKey key)) state.2) :
    (addOrUpdateParams key state p).1 = upsertParams key state.1 p := by
  unfold addOrUpdateParams upsertParams
  rw [h p.Name]
  cases lastPos (key p.Name) (state.1.map (nameKey key)) <;> rfl

theorem map_nameKey_upsertParams (key : String → κ) (arr : List LoadedProp) (p : LoadedProp) :
    (upsertParams key arr p).map (nameKey key) =
      keyStep (arr.map (nameKey key)) (key p.Name) := by
  unfold upsertParams keyStep
  cases h : lastPos (key p.Name) (arr.map (nameKey key)) with
  | some i =>
    simp only [List.map_set]
    exact set_eq_self_of_getElem? (lastPos_getElem? h)
  | none => simp [nameKey]

theorem addOrUpdateParams_IndexOK (key : String → κ) (state : List LoadedProp × TMap Nat)
    (p : LoadedProp) (h : IndexOK key (state.1.map (nameKey key)) state.2) :
    IndexOK key ((addOrUpdateParams key state p).1.map (nameKey key))
      (addOrUpdateParams key state p).2 := by
  rw [addOrUpdateParams_fst key state p h, map_nameKey_upsertParams]
  unfold addOrUpdateParams keyStep
  rw [h p.Name]
  cases hc : lastPos (key p.Name) (state.1.map (nameKey key)) with
  | some i => exact h
  | none =>
    have := IndexOK_append key h p.Name
    simpa using this

theorem foldl_addOrUpdateParams (key : String → κ) (ps : List LoadedProp)
    (state : List LoadedProp × TMap Nat)
    (h : IndexOK key (state.1.map (nameKey key)) state.2) :
    (ps.foldl (addOrUpdateParams key) state).1 = ps.foldl (upsertParams key) state.1 ∧
      IndexOK key ((ps.foldl (addOrUpdateParams key) state).1.map (nameKey key))
        (ps.foldl (addOrUpdateParams key) state).2 := by
  induction ps generalizing state with
  | nil => exact ⟨rfl, h⟩
  | cons p ps ih =>
    simp only [List.foldl_cons]
    have h' := addOrUpdateParams_IndexOK key state p h
    refine ⟨?_, (ih _ h').2⟩
    rw [(ih _ h').1, addOrUpdateParams_fst key state p h]

theorem loadFile_eq (E : Engine κ) (state : List LoadedProp × TMap Nat) (FileName : String) :
    loadFile E state FileName = (fileRecords E FileName).foldl (addOrUpdateParams E.key) state := by
  unfold loadFile fileRecords
  rw [List.foldl_map]

theorem foldl_loadFile (E : Engine κ) (files : List String)
    (state : List LoadedProp × TMap Nat) :
    files.foldl (loadFile E) state =
      (files.flatMap (fileRecords E)).foldl (addOrUpdateParams E.key) state := by
  induction files generalizing state with
  | nil => rfl
  | cons f files ih =>
    simp only [List.foldl_cons, List.flatMap_cons, List.foldl_append]
    rw [ih, loadFile_eq]

theorem loadedProps_eq (E : Engine κ) (PropFileNames : List String) :
    loadedProps E PropFileNames = (mergeInput E PropFileNames).foldl (upsertParams E.key) [] := by
  unfold loadedProps mergeInput
  rw [foldl_loadFile]
  exact (foldl_addOrUpdateParams E.key _ ([], []) (IndexOK_nil E.key)).1

theorem map_nameKey_foldl_upsertParams (key : String → κ) (ps arr : List LoadedProp) :
    (ps.foldl (upsertParams key) arr).map (nameKey key) =
      (ps.map (nameKey key)).foldl keyStep (arr.map (nameKey key)) := by
  induction ps generalizing arr with
  | nil => rfl
  | cons p ps ih =>
    simp only [List.foldl_cons, List.map_cons]
    rw [ih, map_nameKey_upsertParams]
    rfl

end LoaderFacts

section LoaderClaims

variable {κ : Type} [DecidableEq κ]

theorem filter_set_lastPos (key : String → κ) (n : String) (arr : List LoadedProp)
    (p : LoadedProp) (i : Nat) (hnd : (arr.map (nameKey key)).Nodup)
    (hi : lastPos (key p.Name) (arr.map (nameKey key)) = some i) :
    (arr.set i p).filter (sameName key n) =
      if key p.Name = key n then [p] else arr.filter (sameName key n) := by
  induction arr generalizing i with
  | nil => simp [lastPos] at hi
  | cons e es ih =>
    rw [List.map_cons, List.nodup_cons] at hnd
    cases h' : lastPos (key p.Name) (es.map (nameKey key)) with
    | some j =>
      rw [List.map_cons, lastPos_cons_of_some h'] at hi
      cases hi
      have hmem : key p.Name ∈ es.map (nameKey key) := by
        by_contra hc
        rw [(lastPos_eq_none_iff _ _).2 hc] at h'
        cases h'
      have hne : nameKey key e ≠ key p.Name := fun he => hnd.1 (he ▸ hmem)
      rw [List.set_cons_succ, List.filter_cons, List.filter_cons, ih j hnd.2 h']
      by_cases hpn : key p.Name = key n
      · have : sameName key n e = false := by
          simp only [sameName, decide_eq_false_iff_not]
          exact fun he => hne (he.trans hpn.symm)
        simp [this, hpn]
      · simp [hpn]
    | none =>
      rw [List.map_cons, lastPos_cons_of_none h'] at hi
      by_cases he : nameKey key e = key p.Name
      · rw [if_pos he] at hi
        cases hi
        have hnone : ∀ x ∈ es, sameName key (p.Name) x = false := by
          intro x hx
          simp only [sameName, decide_eq_false_iff_not]
          intro hx'
          have : key p.Name ∈ es.map (nameKey key) := List.mem_map.2 ⟨x, hx, hx'⟩
          exact (lastPos_eq_none_iff _ _).1 h' this
        rw [List.set_cons_zero, List.filter_cons, List.filter_cons]
        by_cases hpn : key p.Name = key n
        · have h1 : sameName key n p = true := by simp [sameName, hpn]
          have h2 : sameName key n e = true := by
            simp only [sameName, decide_eq_true_eq]
            exact he.trans hpn
          have h3 : es.filter (sameName key n) = [] := by
            rw [List.filter_eq_nil_iff]
            intro x hx
            have := hnone x hx
            simp only [sameName, decide_eq_false_iff_not] at this
            simp only [sameName, decide_eq_true_eq]
            exact fun hx' => this (hx'.trans hpn.symm)
          simp [h1, h3, hpn]
        · have h1 : sameName key n p = false := by simp [sameName, hpn]
          have h2 : sameName key n e = false := by
            simp only [sameName, decide_eq_false_iff_not]
            exact fun hx => hpn (he.symm.trans hx)
          simp [h1, h2, hpn]
      · rw [if_neg he] at hi
        cases hi

theorem filter_upsertParams (key : String → κ) (n : String) (arr : List LoadedProp)
    (p : LoadedProp) (hnd : (arr.map (nameKey key)).Nodup) :
    (upsertParams key arr p).filter (sameName key n) =
      if key p.Name = key n then [p] else arr.filter (sameName key n) := by
  unfold upsertParams
  cases h : lastPos (key p.Name) (arr.map (nameKey key)) with
  | some i => exact filter_set_lastPos key n arr p i hnd h
  | none =>
    simp only [List.filter_append]
    by_cases hpn : key p.Name = key n
    · have h3 : arr.filter (sameName key n) = [] := by
        rw [List.filter_eq_nil_iff]
        intro x hx
        simp only [sameName, decide_eq_true_eq]
        intro hx'
        have : key p.Name ∈ arr.map (nameKey key) :=
          List.mem_map.2 ⟨x, hx, hx'.trans hpn.symm⟩
        exact (lastPos_eq_none_iff _ _).1 h this
      simp [h3, hpn, sameName, List.filter_cons]
    · simp [hpn, sameName, List.filter_cons]

theorem filter_foldl_upsertParams (key : String → κ) (n : String) (ps arr : List LoadedProp)
    (hnd : (arr.map (nameKey key)).Nodup) :
    (ps.foldl (upsertParams key) arr).filter (sameName key n) =
      match ps.reverse.find? (sameName key n) with
      | some r => [r]
      | none => arr.filter (sameName key n) := by
  induction ps generalizing arr with
  | nil => simp
  | cons p ps ih =>
    have hnd' : ((upsertParams key arr p).map (nameKey key)).Nodup := by
      rw [map_nameKey_upsertParams]
      exact keyStep_nodup hnd _
    rw [List.foldl_cons, ih _ hnd', List.reverse_cons, List.find?_append,
      filter_upsertParams key n arr p hnd]
    cases ps.reverse.find? (sameName key n) with
    | some r => simp
    | none =>
      by_cases hpn : key p.Name = key n
      · simp [hpn, sameName, List.find?_cons]
      · simp [hpn, sameName, List.find?_cons]

theorem filter_loadedProps (E : Engine κ) (PropFileNames : List String) (n : String) :
    (loadedProps E PropFileNames).filter (sameName E.key n) =
      ((mergeInput E PropFileNames).reverse.find? (sameName E.key n)).toList := by
  rw [loadedProps_eq, filter_foldl_upsertParams E.key n _ [] (by simp)]
  cases (mergeInput E PropFileNames).reverse.find? (sameName E.key n) <;> rfl

end LoaderClaims

/-! ## The order of the files -/

section OrderFacts

variable {κ : Type}

theorem lexLess_iff (s t : List Char) : lexLess s t = true ↔ s < t := by
  induction s generalizing t with
  | nil =>
    cases t with
    | nil => simp [lexLess]
    | cons b t => simp [lexLess, List.nil_lt_cons]
  | cons a s ih =>
    cases t with
    | nil =>
      simp only [lexLess]
      constructor
      · intro h; cases h
      · intro h; exact absurd h (List.Lex.not_nil_right _ _)
    | cons b t =>
      have hlt : a.toNat < b.toNat ↔ a < b := by
        rw [Char.lt_def]
        exact Iff.rfl
      have heq : a.toNat = b.toNat ↔ a = b := by
        constructor
        · intro h
          exact Char.ext (UInt32.ext h)
        · intro h; rw [h]
      simp only [lexLess, Bool.or_eq_true, Bool.and_eq_true, decide_eq_true_eq, hlt, heq, ih]
      constructor
      · rintro (h | ⟨h, h'⟩)
        · exact List.Lex.rel h
        · subst h
          exact List.Lex.cons h'
      · intro h
        cases h with
        | cons h' => exact Or.inr ⟨rfl, h'⟩
        | rel h' => exact Or.inl h'

theorem lexLess_antisymm {s t : List Char} (h1 : lexLess s t = false)
    (h2 : lexLess t s = false) : s = t := by
  have h1' : ¬ s < t := fun h => by
    rw [(lexLess_iff s t).2 h] at h1
    cases h1
  have h2' : ¬ t < s := fun h => by
    rw [(lexLess_iff t s).2 h] at h2
    cases h2
  exact le_antisymm (not_lt.1 h2') (not_lt.1 h1')

theorem eq_of_no_ties {l : List String} (hno : NoTies l) {a b : String} (ha : a ∈ l)
    (hb : b ∈ l) (h1 : FStringLess a b = false) (h2 : FStringLess b a = false) : a = b :=
  hno a ha b hb (lexLess_antisymm h1 h2)

theorem NoTies_of_subset {l₁ l₂ : List String} (hno : NoTies l₂)
    (h : ∀ a ∈ l₁, a ∈ l₂) : NoTies l₁ :=
  fun a ha b hb e => hno a (h a ha) b (h b hb) e

theorem eq_of_perm_of_ascending {l₁ l₂ : List String} (hp : l₁.Perm l₂)
    (h1 : Ascending l₁) (h2 : Ascending l₂) (hno : NoTies l₁) : l₁ = l₂ := by
  induction l₁ generalizing l₂ with
  | nil => exact hp.nil_eq
  | cons a t₁ ih =>
    cases l₂ with
    | nil => exact absurd hp.symm.nil_eq (List.cons_ne_nil _ _).symm
    | cons b t₂ =>
      unfold Ascending at h1 h2
      rw [List.pairwise_cons] at h1 h2
      have hab : a = b := by
        by_contra hne
        have ha : a ∈ t₂ := by
          rcases List.mem_cons.1 (hp.mem_iff.1 (List.mem_cons_self a t₁)) with e | h
          · exact absurd e hne
          · exact h
        have hb : b ∈ t₁ := by
          rcases List.mem_cons.1 (hp.mem_iff.2 (List.mem_cons_self b t₂)) with e | h
          · exact absurd e.symm hne
          · exact h
        exact hne (eq_of_no_ties hno (List.mem_cons_self a t₁) (List.mem_cons_of_mem a hb)
          (h2.1 a ha) (h1.1 b hb))
      subst hab
      rw [ih (List.Perm.cons_inv hp) h1.2 h2.2
        (NoTies_of_subset hno (fun x hx => List.mem_cons_of_mem a hx))]

theorem TArraySort_eq_of_perm (E : Engine κ) {l₁ l₂ : List String} (hs₁ : SortsArray E l₁)
    (hs₂ : SortsArray E l₂) (hno : NoTies l₁) (h : l₁.Perm l₂) :
    E.TArraySort l₁ = E.TArraySort l₂ :=
  eq_of_perm_of_ascending (hs₁.1.trans (h.trans hs₂.1.symm)) hs₁.2 hs₂.2
    (NoTies_of_subset hno (fun _ hx => hs₁.1.mem_iff.1 hx))

theorem TArraySort_filter (E : Engine κ) (p : String → Bool) (l : List String)
    (hs : SortsArray E l) (hsf : SortsArray E (l.filter p)) (hno : NoTies l) :
    E.TArraySort (l.filter p) = (E.TArraySort l).filter p := by
  apply eq_of_perm_of_ascending (hsf.1.trans (hs.1.filter p).symm) hsf.2
  · exact List.Pairwise.filter p hs.2
  · exact NoTies_of_subset hno
      (fun x hx => (List.mem_filter.1 (hsf.1.mem_iff.1 hx)).1)

theorem removeDefaultFile_eq (l : List String) :
    removeDefaultFile l = (l.find? isDefaultFile).map (fun d => (d, l.erase d)) := by
  induction l with
  | nil => rfl
  | cons f rest ih =>
    by_cases hf : FStringContains f CommonAttributes.DEFAULT = true
    · simp [removeDefaultFile, hf, isDefaultFile, List.find?_cons]
    · have hf' : isDefaultFile f = false := by simpa [isDefaultFile] using hf
      rw [removeDefaultFile, if_neg hf, ih, List.find?_cons, hf']
      cases hd : rest.find? isDefaultFile with
      | none => rfl
      | some d =>
        have hdp : isDefaultFile d = true := List.find?_some hd
        have hne : f ≠ d := fun e => by rw [e, hdp] at hf'; cases hf'
        simp [List.erase_cons, hne]

theorem sortDefaultFirst_eq (E : Engine κ) (PropFileNames : List String) :
    sortDefaultFirst E PropFileNames =
      match (E.TArraySort PropFileNames).find? isDefaultFile with
      | some d => d :: (E.TArraySort PropFileNames).erase d
      | none => E.TArraySort PropFileNames := by
  rw [sortDefaultFirst, removeDefaultFile_eq]
  cases (E.TArraySort PropFileNames).find? isDefaultFile <;> rfl

theorem perm_sortDefaultFirst (E : Engine κ) (PropFileNames : List String) :
    (sortDefaultFirst E PropFileNames).Perm (E.TArraySort PropFileNames) := by
  rw [sortDefaultFirst_eq]
  cases hd : (E.TArraySort PropFileNames).find? isDefaultFile with
  | none => exact List.Perm.refl _
  | some d => exact (List.perm_cons_erase (List.mem_of_find?_eq_some hd)).symm

theorem not_less_find?_of_ascending {p : String → Bool} {l : List String} {d x : String}
    (hs : Ascending l) (hd : l.find? p = some d) (hx : x ∈ l) (hp : p x = true)
    (hne : x ≠ d) : FStringLess x d = false := by
  induction l with
  | nil => cases hx
  | cons a l ih =>
    unfold Ascending at hs
    rw [List.pairwise_cons] at hs
    by_cases ha : p a = true
    · rw [List.find?_cons, ha] at hd
      cases hd
      rcases List.mem_cons.1 hx with e | hx'
      · exact absurd e hne
      · exact hs.1 x hx'
    · have ha' : p a = false := by simpa using ha
      rw [List.find?_cons, ha'] at hd
      rcases List.mem_cons.1 hx with rfl | hx'
      · rw [hp] at ha'; cases ha'
      · exact ih hs.2 hd hx'

theorem find?_isDefaultFile_of_least (E : Engine κ) {PropFileNames : List String}
    {D : String} (hs : SortsArray E PropFileNames)
    (hmem : D ∈ PropFileNames) (hD : isDefaultFile D = true)
    (hleast : ∀ f ∈ PropFileNames, f ≠ D → isDefaultFile f = true →
      FStringLess D f = true) :
    (E.TArraySort PropFileNames).find? isDefaultFile = some D := by
  have hmem' : D ∈ E.TArraySort PropFileNames := hs.1.mem_iff.2 hmem
  cases hd : (E.TArraySort PropFileNames).find? isDefaultFile with
  | none =>
    have := List.find?_eq_none.1 hd D hmem'
    exact absurd hD this
  | some d =>
    by_cases hne : d = D
    · rw [hne]
    · have h1 : FStringLess D d = false :=
        not_less_find?_of_ascending hs.2 hd hmem' hD (fun e => hne e.symm)
      have h2 : FStringLess D d = true :=
        hleast d (hs.1.mem_iff.1 (List.mem_of_find?_eq_some hd)) hne (List.find?_some hd)
      rw [h1] at h2
      cases h2

end OrderFacts

/-! ## Facts about JSON objects and "Fill Prop Json" -/

section FillFacts

variable {κ : Type} [DecidableEq κ]

theorem TMapAdd_comm_of_present {V : Type} (key : String → κ) (m : TMap V) (k k2 : String)
    (v w : V) (hp : (TMapFind key m k).isSome = true) (hne : key k ≠ key k2) :
    TMapAdd key (TMapAdd key m k2 w) k v = TMapAdd key (TMapAdd key m k v) k2 w := by
  induction m with
  | nil => simp [TMapFind] at hp
  | cons e m ih =>
    obtain ⟨a, b⟩ := e
    by_cases h1 : key a = key k
    · have h2 : ¬ key a = key k2 := fun e => hne (h1.symm.trans e)
      rw [TMapAdd, if_neg h2, TMapAdd, if_pos h1, TMapAdd, if_pos h1, TMapAdd, if_neg hne]
    · by_cases h2 : key a = key k2
      · have h3 : ¬ key k2 = key k := fun e => hne e.symm
        rw [TMapAdd, if_pos h2, TMapAdd, if_neg h3, TMapAdd, if_neg h1, TMapAdd, if_pos h2]
      · rw [TMapFind, if_neg h1] at hp
        rw [TMapAdd, if_neg h2, TMapAdd, if_neg h1, TMapAdd, if_neg h1, TMapAdd, if_neg h2,
          ih hp]

theorem TMapFind_TMapAdd_isSome {V : Type} (key : String → κ) (m : TMap V) (k : String)
    (v : V) : (TMapFind key (TMapAdd key m k v) k).isSome = true := by
  rw [TMapFind_TMapAdd, if_pos rfl]
  rfl

theorem TMapFind_isSome_TMapAdd {V : Type} (key : String → κ) (m : TMap V) (k k' : String)
    (v : V) (h : (TMapFind key m k).isSome = true) :
    (TMapFind key (TMapAdd key m k' v) k).isSome = true := by
  rw [TMapFind_TMapAdd]
  split
  · rfl
  · exact h

theorem GetStringField_SetStringField (key : String → κ) (o : FJsonObject)
    (field value field' : String) :
    GetStringField key (SetStringField key o field value) field' =
      if key field = key field' then value else GetStringField key o field' := by
  unfold GetStringField SetStringField
  rw [TMapFind_TMapAdd]
  by_cases h : key field = key field'
  · rw [if_pos h, if_pos h]
    rfl
  · rw [if_neg h, if_neg h]

theorem FieldKeysDistinct_id : FieldKeysDistinct (id : String → String) := by
  unfold FieldKeysDistinct
  decide

theorem fillPropJson_name (E : Engine κ) (hk : FieldKeysDistinct E.key) (o : FJsonObject)
    (p : FPropParameters UStaticMesh) :
    GetStringField E.key (fillPropJson E o p) PropAttributes.NAME = p.Name := by
  dsimp only [fillPropJson]
  rw [GetStringField_SetStringField, if_neg (Ne.symm hk.2.1), GetStringField_SetStringField,
    if_neg (Ne.symm hk.1), GetStringField_SetStringField, if_pos rfl]

theorem fillPropJson_path (E : Engine κ) (hk : FieldKeysDistinct E.key) (o : FJsonObject)
    (p : FPropParameters UStaticMesh) :
    GetStringField E.key (fillPropJson E o p) PropAttributes.MESH_PATH = p.Mesh.PathName := by
  dsimp only [fillPropJson]
  rw [GetStringField_SetStringField, if_neg (Ne.symm hk.2.2), GetStringField_SetStringField,
    if_pos rfl]

theorem fillPropJson_size (E : Engine κ) (o : FJsonObject)
    (p : FPropParameters UStaticMesh) :
    GetStringField E.key (fillPropJson E o p) PropAttributes.SIZE =
      PropSizeTypeToString E.FindObject p.Size := by
  dsimp only [fillPropJson]
  rw [GetStringField_SetStringField, if_pos rfl]

theorem fillPropJson_fillPropJson (E : Engine κ) (hk : FieldKeysDistinct E.key)
    (o : FJsonObject) (p q : FPropParameters UStaticMesh) :
    fillPropJson E (fillPropJson E o p) q = fillPropJson E o q := by
  dsimp only [fillPropJson, SetStringField]
  obtain ⟨h12, h13, h23⟩ := hk
  generalize PropSizeTypeToString E.FindObject p.Size = ps
  generalize PropSizeTypeToString E.FindObject q.Size = qs
  have s1 : ∀ (m : FJsonObject) (a b c : FJsonValue),
      TMapAdd E.key (TMapAdd E.key (TMapAdd E.key (TMapAdd E.key m PropAttributes.NAME a)
        PropAttributes.MESH_PATH b) PropAttributes.SIZE c) PropAttributes.NAME (.string q.Name) =
      TMapAdd E.key (TMapAdd E.key (TMapAdd E.key m PropAttributes.NAME (.string q.Name))
        PropAttributes.MESH_PATH b) PropAttributes.SIZE c := by
    intro m a b c
    rw [TMapAdd_comm_of_present E.key _ _ _ _ _
        (TMapFind_isSome_TMapAdd E.key _ _ _ _ (TMapFind_TMapAdd_isSome E.key _ _ _)) h13,
      TMapAdd_comm_of_present E.key _ _ _ _ _ (TMapFind_TMapAdd_isSome E.key _ _ _) h12,
      TMapAdd_TMapAdd]
  have s2 : ∀ (m : FJsonObject) (b c : FJsonValue),
      TMapAdd E.key (TMapAdd E.key (TMapAdd E.key m PropAttributes.MESH_PATH b)
        PropAttributes.SIZE c) PropAttributes.MESH_PATH (.string q.Mesh.PathName) =
      TMapAdd E.key (TMapAdd E.key m PropAttributes.MESH_PATH (.string q.Mesh.PathName))
        PropAttributes.SIZE c := by
    intro m b c
    rw [TMapAdd_comm_of_present E.key _ _ _ _ _ (TMapFind_TMapAdd_isSome E.key _ _ _) h23,
      TMapAdd_TMapAdd]
  rw [s1, s2, TMapAdd_TMapAdd]

end FillFacts

/-! ## The writer fold -/

section WriterFacts

variable {κ : Type} [DecidableEq κ]

theorem buildPropIndexes_find (key : String → κ) (arr : List FJsonValue) (i : Nat)
    (idx : TMap Nat) (k : String) :
    TMapFind key (buildPropIndexes key arr i idx) k =
      match lastPos (key k) (arr.map (entryKey key)) with
      | some j => some (i + j)
      | none => TMapFind key idx k := by
  induction arr generalizing i idx with
  | nil => simp [buildPropIndexes, lastPos]
  | cons v rest ih =>
    rw [buildPropIndexes, ih, List.map_cons, TMapFind_TMapAdd]
    cases h : lastPos (key k) (rest.map (entryKey key)) with
    | some j =>
      rw [lastPos_cons_of_some h]
      simp only [Option.some.injEq]
      omega
    | none =>
      rw [lastPos_cons_of_none h]
      by_cases hv : entryKey key v = key k
      · have hv' : key (GetStringField key (AsObject v) PropAttributes.NAME) = key k := hv
        simp [hv, hv']
      · have hv' : ¬ key (GetStringField key (AsObject v) PropAttributes.NAME) = key k := hv
        simp [hv, hv']

theorem buildPropIndexes_IndexOK (key : String → κ) (arr : List FJsonValue) :
    IndexOK key (arr.map (entryKey key)) (buildPropIndexes key arr 0 []) := by
  intro k
  rw [buildPropIndexes_find]
  cases lastPos (key k) (arr.map (entryKey key)) with
  | some j => simp
  | none => simp [TMapFind]

theorem entryKey_fillPropJson (E : Engine κ) (hk : FieldKeysDistinct E.key) (o : FJsonObject)
    (p : FPropParameters UStaticMesh) :
    entryKey E.key (.object (fillPropJson E o p)) = E.key p.Name := by
  unfold entryKey
  rw [AsObject, fillPropJson_name E hk]

theorem addOrUpdateProp_fst (E : Engine κ) (state : List FJsonValue × TMap Nat)
    (p : FPropParameters UStaticMesh)
    (h : IndexOK E.key (state.1.map (entryKey E.key)) state.2) :
    (addOrUpdateProp E state p).1 = upsertProp E state.1 p := by
  unfold addOrUpdateProp upsertProp
  rw [h p.Name]
  cases lastPos (E.key p.Name) (state.1.map (entryKey E.key)) <;> rfl

theorem map_entryKey_upsertProp (E : Engine κ) (hk : FieldKeysDistinct E.key)
    (arr : List FJsonValue) (p : FPropParameters UStaticMesh) :
    (upsertProp E arr p).map (entryKey E.key) =
      keyStep (arr.map (entryKey E.key)) (E.key p.Name) := by
  unfold upsertProp keyStep
  cases h : lastPos (E.key p.Name) (arr.map (entryKey E.key)) with
  | some i =>
    simp only [List.map_set]
    rw [entryKey_fillPropJson E hk]
    exact set_eq_self_of_getElem? (lastPos_getElem? h)
  | none =>
    simp only [List.map_append, List.map_cons, List.map_nil]
    rw [entryKey_fillPropJson E hk]

theorem addOrUpdateProp_IndexOK (E : Engine κ) (hk : FieldKeysDistinct E.key)
    (state : List FJsonValue × TMap Nat) (p : FPropParameters UStaticMesh)
    (h : IndexOK E.key (state.1.map (entryKey E.key)) state.2) :
    IndexOK E.key ((addOrUpdateProp E state p).1.map (entryKey E.key))
      (addOrUpdateProp E state p).2 := by
  rw [addOrUpdateProp_fst E state p h, map_entryKey_upsertProp E hk]
  unfold addOrUpdateProp keyStep
  rw [h p.Name]
  cases hc : lastPos (E.key p.Name) (state.1.map (entryKey E.key)) with
  | some i => exact h
  | none =>
    have := IndexOK_append E.key h p.Name
    simpa using this

theorem foldl_addOrUpdateProp (E : Engine κ) (hk : FieldKeysDistinct E.key)
    (ps : List (FPropParameters UStaticMesh)) (state : List FJsonValue × TMap Nat)
    (h : IndexOK E.key (state.1.map (entryKey E.key)) state.2) :
    (ps.foldl (addOrUpdateProp E) state).1 = ps.foldl (upsertProp E) state.1 := by
  induction ps generalizing state with
  | nil => rfl
  | cons p ps ih =>
    simp only [List.foldl_cons]
    rw [ih _ (addOrUpdateProp_IndexOK E hk state p h), addOrUpdateProp_fst E state p h]

theorem initialProps_fst (E : Engine κ) (parsed : Option FJsonObject) :
    (initialProps E parsed).1 = baseDefinitions E parsed := by
  cases parsed <;> rfl

theorem initialProps_IndexOK (E : Engine κ) (parsed : Option FJsonObject) :
    IndexOK E.key ((initialProps E parsed).1.map (entryKey E.key)) (initialProps E parsed).2 := by
  cases parsed with
  | none => exact IndexOK_nil E.key
  | some o => exact buildPropIndexes_IndexOK E.key _

theorem mergeProps_eq (E : Engine κ) (hk : FieldKeysDistinct E.key)
    (parsed : Option FJsonObject) (ps : List (FPropParameters UStaticMesh)) :
    mergeProps E parsed ps = ps.foldl (upsertProp E) (baseDefinitions E parsed) := by
  unfold mergeProps
  rw [foldl_addOrUpdateProp E hk ps _ (initialProps_IndexOK E parsed), initialProps_fst]

theorem map_entryKey_foldl_upsertProp (E : Engine κ) (hk : FieldKeysDistinct E.key)
    (ps : List (FPropParameters UStaticMesh)) (arr : List FJsonValue) :
    (ps.foldl (upsertProp E) arr).map (entryKey E.key) =
      (ps.map (nameKey E.key)).foldl keyStep (arr.map (entryKey E.key)) := by
  induction ps generalizing arr with
  | nil => rfl
  | cons p ps ih =>
    simp only [List.foldl_cons, List.map_cons]
    rw [ih, map_entryKey_upsertProp E hk]
    rfl

theorem GetArrayField_SetArrayField (key : String → κ) (o : FJsonObject) (field : String)
    (items : List FJsonValue) :
    GetArrayField key (SetArrayField key o field items) field = items := by
  unfold GetArrayField SetArrayField
  rw [TMapFind_TMapAdd, if_pos rfl]

theorem definitions_mergedDocument (E : Engine κ) (parsed : Option FJsonObject)
    (ps : List (FPropParameters UStaticMesh)) :
    GetArrayField E.key (mergedDocument E parsed ps) CommonAttributes.DEFINITIONS =
      mergeProps E parsed ps :=
  GetArrayField_SetArrayField _ _ _ _

end WriterFacts

/-! ## Merging the same records again -/

section Idempotence

variable {κ : Type} [DecidableEq κ]

theorem lastRecord_append_singleton (key : String → κ) (c : κ)
    (X : List (FPropParameters UStaticMesh)) (p : FPropParameters UStaticMesh) :
    lastRecord key c (X ++ [p]) = if key p.Name = c then some p else lastRecord key c X := by
  unfold lastRecord
  rw [List.reverse_append, List.reverse_singleton, List.singleton_append, List.find?_cons]
  by_cases h : key p.Name = c
  · simp [h]
  · simp [h]

theorem lastRecord_key {key : String → κ} {c : κ} {X : List (FPropParameters UStaticMesh)}
    {q : FPropParameters UStaticMesh} (h : lastRecord key c X = some q) : key q.Name = c := by
  have := List.find?_some h
  simpa using this

theorem entryKey_refillEntry (E : Engine κ) (hk : FieldKeysDistinct E.key)
    (X : List (FPropParameters UStaticMesh)) (e : FJsonValue) :
    entryKey E.key (refillEntry E X e) = entryKey E.key e := by
  unfold refillEntry
  cases h : lastRecord E.key (entryKey E.key e) X with
  | none => rfl
  | some q =>
    simp only
    rw [entryKey_fillPropJson E hk, lastRecord_key h]

theorem map_entryKey_refill (E : Engine κ) (hk : FieldKeysDistinct E.key)
    (X : List (FPropParameters UStaticMesh)) (arr : List FJsonValue) :
    (refill E X arr).map (entryKey E.key) = arr.map (entryKey E.key) := by
  induction arr with
  | nil => rfl
  | cons e es ih =>
    rw [refill, List.map_cons, List.map_cons, ih]
    by_cases h : entryKey E.key e ∈ es.map (entryKey E.key)
    · rw [if_pos h]
    · rw [if_neg h, entryKey_refillEntry E hk]

theorem refillEntry_append_of_ne (E : Engine κ) (X : List (FPropParameters UStaticMesh))
    (p : FPropParameters UStaticMesh) (e : FJsonValue) (h : E.key p.Name ≠ entryKey E.key e) :
    refillEntry E (X ++ [p]) e = refillEntry E X e := by
  unfold refillEntry
  rw [lastRecord_append_singleton, if_neg h]

theorem refillEntry_append_of_eq (E : Engine κ) (hk : FieldKeysDistinct E.key)
    (X : List (FPropParameters UStaticMesh))
    (p : FPropParameters UStaticMesh) (e : FJsonValue) (h : E.key p.Name = entryKey E.key e) :
    refillEntry E (X ++ [p]) e =
      .object (fillPropJson E (AsObject (refillEntry E X e)) p) := by
  unfold refillEntry
  rw [lastRecord_append_singleton, if_pos h]
  cases lastRecord E.key (entryKey E.key e) X with
  | none => rfl
  | some q =>
    simp only [AsObject]
    rw [fillPropJson_fillPropJson E hk]

theorem refill_append_of_not_mem (E : Engine κ) (X : List (FPropParameters UStaticMesh))
    (p : FPropParameters UStaticMesh) (es : List FJsonValue)
    (h : E.key p.Name ∉ es.map (entryKey E.key)) :
    refill E (X ++ [p]) es = refill E X es := by
  induction es with
  | nil => rfl
  | cons e es ih =>
    rw [List.map_cons, List.mem_cons, not_or] at h
    rw [refill, refill, ih h.2, refillEntry_append_of_ne E X p e h.1]

theorem refill_set_lastPos (E : Engine κ) (hk : FieldKeysDistinct E.key)
    (X : List (FPropParameters UStaticMesh)) (p : FPropParameters UStaticMesh)
    (arr : List FJsonValue) (i : Nat)
    (hi : lastPos (E.key p.Name) (arr.map (entryKey E.key)) = some i) :
    (refill E X arr).set i
        (.object (fillPropJson E (AsObject ((refill E X arr).getD i .null)) p)) =
      refill E (X ++ [p]) arr := by
  induction arr generalizing i with
  | nil => simp [lastPos] at hi
  | cons e es ih =>
    cases h' : lastPos (E.key p.Name) (es.map (entryKey E.key)) with
    | some j =>
      rw [List.map_cons, lastPos_cons_of_some h'] at hi
      cases hi
      have hmem : E.key p.Name ∈ es.map (entryKey E.key) := by
        by_contra hc
        rw [(lastPos_eq_none_iff _ _).2 hc] at h'
        cases h'
      rw [refill, refill, List.set_cons_succ, List.getD_cons_succ, ih j h']
      by_cases hin : entryKey E.key e ∈ es.map (entryKey E.key)
      · rw [if_pos hin, if_pos hin]
      · have hne : E.key p.Name ≠ entryKey E.key e := fun he => hin (he ▸ hmem)
        rw [if_neg hin, if_neg hin, refillEntry_append_of_ne E X p e hne]
    | none =>
      rw [List.map_cons, lastPos_cons_of_none h'] at hi
      by_cases he : entryKey E.key e = E.key p.Name
      · rw [if_pos he] at hi
        cases hi
        have hnot : E.key p.Name ∉ es.map (entryKey E.key) := (lastPos_eq_none_iff _ _).1 h'
        have hin : entryKey E.key e ∉ es.map (entryKey E.key) := he ▸ hnot
        rw [refill, refill, List.set_cons_zero, List.getD_cons_zero, if_neg hin, if_neg hin,
          refill_append_of_not_mem E X p es hnot, refillEntry_append_of_eq E hk X p e he.symm]
      · rw [if_neg he] at hi
        cases hi

theorem refill_nil (E : Engine κ) (arr : List FJsonValue) : refill E [] arr = arr := by
  induction arr with
  | nil => rfl
  | cons e es ih =>
    rw [refill, ih]
    by_cases h : entryKey E.key e ∈ es.map (entryKey E.key)
    · rw [if_pos h]
    · rw [if_neg h]
      rfl

theorem foldl_upsertProp_eq_refill (E : Engine κ) (hk : FieldKeysDistinct E.key)
    (X : List (FPropParameters UStaticMesh)) (arr : List FJsonValue)
    (h : ∀ p ∈ X, E.key p.Name ∈ arr.map (entryKey E.key)) :
    X.foldl (upsertProp E) arr = refill E X arr := by
  induction X using List.reverseRecOn with
  | nil => exact (refill_nil E arr).symm
  | append_singleton X p ih =>
    rw [List.foldl_append, List.foldl_cons, List.foldl_nil,
      ih (fun q hq => h q (List.mem_append_left _ hq))]
    have hp : E.key p.Name ∈ arr.map (entryKey E.key) :=
      h p (List.mem_append_right _ (List.mem_singleton_self p))
    unfold upsertProp
    rw [map_entryKey_refill E hk]
    cases hi : lastPos (E.key p.Name) (arr.map (entryKey E.key)) with
    | none => exact absurd hp ((lastPos_eq_none_iff _ _).1 hi)
    | some i => exact refill_set_lastPos E hk X p arr i hi

theorem refillEntry_refillEntry (E : Engine κ) (hk : FieldKeysDistinct E.key)
    (X : List (FPropParameters UStaticMesh)) (e : FJsonValue) :
    refillEntry E X (refillEntry E X e) = refillEntry E X e := by
  have hkey := entryKey_refillEntry E hk X e
  unfold refillEntry at hkey ⊢
  cases h : lastRecord E.key (entryKey E.key e) X with
  | none =>
    simp only
    rw [h]
  | some q =>
    rw [h] at hkey
    simp only at hkey ⊢
    rw [hkey, h]
    simp only [AsObject]
    rw [fillPropJson_fillPropJson E hk]

theorem refill_refill (E : Engine κ) (hk : FieldKeysDistinct E.key)
    (X : List (FPropParameters UStaticMesh)) (arr : List FJsonValue) :
    refill E X (refill E X arr) = refill E X arr := by
  induction arr with
  | nil => rfl
  | cons e es ih =>
    rw [refill, refill, ih, map_entryKey_refill E hk]
    by_cases hin : entryKey E.key e ∈ es.map (entryKey E.key)
    · rw [if_pos hin, if_pos hin]
    · rw [if_neg hin, entryKey_refillEntry E hk, if_neg hin, refillEntry_refillEntry E hk]

theorem refill_append_new (E : Engine κ) (X : List (FPropParameters UStaticMesh))
    (p : FPropParameters UStaticMesh) (S : List FJsonValue) (v : FJsonValue)
    (hS : E.key p.Name ∉ S.map (entryKey E.key)) (hv : entryKey E.key v = E.key p.Name) :
    refill E (X ++ [p]) (S ++ [v]) = refill E X S ++ [refillEntry E (X ++ [p]) v] := by
  induction S with
  | nil => simp [refill]
  | cons e es ih =>
    rw [List.map_cons, List.mem_cons, not_or] at hS
    rw [List.cons_append, refill, refill, ih hS.2, List.cons_append,
      refillEntry_append_of_ne E X p e hS.1]
    have hne : entryKey E.key e ≠ entryKey E.key v := fun h => hS.1 (hv ▸ h.symm)
    have : entryKey E.key e ∈ (es ++ [v]).map (entryKey E.key) ↔
        entryKey E.key e ∈ es.map (entryKey E.key) := by
      simp [hne]
    by_cases hin : entryKey E.key e ∈ es.map (entryKey E.key)
    · rw [if_pos hin, if_pos (this.2 hin)]
    · rw [if_neg hin, if_neg (fun h => hin (this.1 h))]

theorem refill_foldl_upsertProp (E : Engine κ) (hk : FieldKeysDistinct E.key)
    (R : List (FPropParameters UStaticMesh)) (arr : List FJsonValue) :
    refill E R (R.foldl (upsertProp E) arr) = R.foldl (upsertProp E) arr := by
  induction R using List.reverseRecOn with
  | nil => exact refill_nil E _
  | append_singleton R p ih =>
    rw [List.foldl_append, List.foldl_cons, List.foldl_nil]
    generalize R.foldl (upsertProp E) arr = S at ih ⊢
    unfold upsertProp
    cases hi : lastPos (E.key p.Name) (S.map (entryKey E.key)) with
    | some i =>
      simp only
      have h2 := refill_set_lastPos E hk R p S i (by rw [hi])
      rw [ih] at h2
      rw [h2, refill_refill E hk]
    | none =>
      simp only
      have hS := (lastPos_eq_none_iff _ _).1 hi
      rw [refill_append_new E R p S _ hS (entryKey_fillPropJson E hk _ _), ih,
        refillEntry_append_of_eq E hk R p _ (entryKey_fillPropJson E hk _ _).symm]
      unfold refillEntry
      rw [entryKey_fillPropJson E hk]
      cases hq : lastRecord E.key (E.key p.Name) R with
      | none =>
        simp only [AsObject]
        rw [fillPropJson_fillPropJson E hk]
      | some q =>
        simp only [AsObject]
        rw [fillPropJson_fillPropJson E hk, fillPropJson_fillPropJson E hk]

theorem mem_foldl_keyStep (ks cs : List κ) (c : κ) (h : c ∈ ks ∨ c ∈ cs) :
    c ∈ cs.foldl keyStep ks := by
  induction cs generalizing ks with
  | nil =>
    rcases h with h | h
    · exact h
    · cases h
  | cons d cs ih =>
    rw [List.foldl_cons]
    apply ih
    unfold keyStep
    cases hd : lastPos d ks with
    | some i =>
      have hdm : d ∈ ks := by
        by_contra hc
        rw [(lastPos_eq_none_iff _ _).2 hc] at hd
        cases hd
      rcases h with h | h
      · exact Or.inl h
      · rcases List.mem_cons.1 h with rfl | h
        · exact Or.inl hdm
        · exact Or.inr h
    | none =>
      rcases h with h | h
      · exact Or.inl (List.mem_append_left _ h)
      · rcases List.mem_cons.1 h with rfl | h
        · exact Or.inl (List.mem_append_right _ (List.mem_singleton_self _))
        · exact Or.inr h

theorem foldl_upsertProp_idem (E : Engine κ) (hk : FieldKeysDistinct E.key)
    (R : List (FPropParameters UStaticMesh)) (arr : List FJsonValue) :
    R.foldl (upsertProp E) (R.foldl (upsertProp E) arr) = R.foldl (upsertProp E) arr := by
  rw [foldl_upsertProp_eq_refill E hk R (R.foldl (upsertProp E) arr), refill_foldl_upsertProp E hk]
  intro p hp
  rw [map_entryKey_foldl_upsertProp E hk]
  exact mem_foldl_keyStep _ _ _ (Or.inr (List.mem_map.2 ⟨p, hp, rfl⟩))

end Idempotence

/-! ## Facts about the size conversions -/

section SizeFacts

variable {κ : Type} [DecidableEq κ]

theorem indexByName_of_not_mem (key : String → κ) (names : List String) (s : String) (i : Nat)
    (h : ∀ n ∈ names, key n ≠ key s) : indexByName key names s i = -1 := by
  induction names generalizing i with
  | nil => rfl
  | cons n names ih =>
    rw [indexByName, if_neg (h n (List.mem_cons_self _ _))]
    exact ih (i + 1) (fun m hm => h m (List.mem_cons_of_mem _ hm))

theorem indexByName_getD (key : String → κ) (names : List String) (i j : Nat)
    (hi : i < names.length) (hnd : (names.map key).Nodup) :
    indexByName key names (names.getD i "") j = ((j + i : Nat) : Int) := by
  induction names generalizing i j with
  | nil => simp at hi
  | cons n names ih =>
    rw [List.map_cons, List.nodup_cons] at hnd
    cases i with
    | zero =>
      rw [List.getD_cons_zero, indexByName, if_pos rfl]
      rfl
    | succ i =>
      have hi' : i < names.length := by simpa using hi
      have hmem : names.getD i "" ∈ names := by
        rw [List.getD_eq_getElem _ _ hi']
        exact List.getElem_mem hi'
      have hne : ¬ key n = key (names.getD i "") := fun e =>
        hnd.1 (e ▸ List.mem_map.2 ⟨_, hmem, rfl⟩)
      rw [List.getD_cons_succ, indexByName, if_neg hne, ih i (j + 1) hi' hnd.2]
      congr 1
      omega

theorem castToEPropSize_natCast (i : Nat) (h : i < 256) : castToEPropSize (i : Int) = i := by
  unfold castToEPropSize
  rw [Int.emod_eq_of_lt (Int.ofNat_nonneg i) (by omega), Int.toNat_ofNat]

theorem castToEPropSize_INDEX_NONE : castToEPropSize (-1) = 255 := by
  decide

theorem StringToPropSizeType_PropSizeTypeToString (key : String → κ) (EnumPtr : UEnum)
    (INVALID s : EPropSize) (hnd : (EnumPtr.Names.map key).Nodup)
    (hs : s < EnumPtr.Names.length) (h256 : s < 256) :
    StringToPropSizeType key (some EnumPtr) INVALID (PropSizeTypeToString (some EnumPtr) s) =
      s := by
  unfold StringToPropSizeType PropSizeTypeToString UEnum.GetNameStringByIndex
    UEnum.GetIndexByName
  simp only
  rw [if_pos (Int.ofNat_nonneg s), Int.toNat_ofNat, indexByName_getD key _ s 0 hs hnd,
    Nat.zero_add, castToEPropSize_natCast s h256]

end SizeFacts

/-! ## Claims about the loader -/

section LoaderTheorems

variable {κ : Type} [DecidableEq κ]

/-- C1: for every list of registry files and every content of those files, the records of
the loader's result that carry a name `n` are exactly the last record carrying `n` in the
concatenation of the files' definitions arrays taken in processing order (none when no file
has a record of that name).  When `Default.PropRegistry.json` defines `bench` as `Small` (1)
and `user.PropRegistry.json` defines it as `Big` (3), the final record has size `Big`. -/
theorem loadedProps_last_record_wins (E : Engine κ) (PropFileNames : List String)
    (n : String) :
    (loadedProps E PropFileNames).filter (sameName E.key n) =
        ((mergeInput E PropFileNames).reverse.find? (sameName E.key n)).toList ∧
      loadedProps (benchEngine demoUserPath) [demoUserPath, demoDefaultPath] =
        [{ Name := "bench", Mesh := some ⟨"/Game/Bench"⟩, Size := 3 }] :=
  ⟨filter_loadedProps E PropFileNames n, by decide⟩

end LoaderTheorems

/-! ## Claims about the processing order -/

section OrderTheorems

variable {κ : Type}

/-- C2, as stated, fails: the sort compares the paths ignoring letter case, and so does the
search for the token.  For `B.PropRegistry.json` and `a.PropRegistry.json` the processing
order is `a`, `B`, while in lexicographic order `B` comes first; and
`mydefault.PropRegistry.json`, which does not contain `Default`, is moved in front of
`a.PropRegistry.json`, while the lexicographically sorted list is `a`, `mydefault`. -/
theorem processing_order_ignores_case :
    sortDefaultFirst (demoEngine [] [] true) [demoUpperBPath, demoLowerAPath] =
        [demoLowerAPath, demoUpperBPath] ∧
      statedOrder [demoUpperBPath, demoLowerAPath] = [demoUpperBPath, demoLowerAPath] ∧
      containsVerbatim demoLowerDefaultPath CommonAttributes.DEFAULT = false ∧
      sortDefaultFirst (demoEngine [] [] true) [demoLowerAPath, demoLowerDefaultPath] =
        [demoLowerDefaultPath, demoLowerAPath] ∧
      statedOrder [demoLowerAPath, demoLowerDefaultPath] =
        [demoLowerAPath, demoLowerDefaultPath] := by
  decide

/-- C2, amended: when the sort leaves the discovered paths in ascending order of the
comparison of `FString`, which ignores letter case, the processing order is the first path
of that sorted array that contains the token `Default` in any letter case, followed by the
rest of the sorted array in its order, and the sorted array itself when no path contains
the token in any letter case; every discovered path is processed exactly as often as it was
discovered.  Paths that differ only in case may stand in either order in the sorted array.
For `[b.PropRegistry.json, Default.PropRegistry.json, a.PropRegistry.json]` the order is
`Default`, `a`, `b`, whatever the sort does with ties. -/
theorem sortDefaultFirst_order (E : Engine κ) (PropFileNames : List String)
    (hs : SortsArray E PropFileNames) :
    (∃ sorted : List String, sorted.Perm PropFileNames ∧ Ascending sorted ∧
      sortDefaultFirst E PropFileNames =
        (match sorted.find? (fun f => FStringContains f CommonAttributes.DEFAULT) with
          | some d => d :: sorted.erase d
          | none => sorted)) ∧
      (sortDefaultFirst E PropFileNames).Perm PropFileNames ∧
      ∀ E' : Engine κ,
        SortsArray E'
            ["b.PropRegistry.json", "Default.PropRegistry.json", "a.PropRegistry.json"] →
          sortDefaultFirst E'
              ["b.PropRegistry.json", "Default.PropRegistry.json", "a.PropRegistry.json"] =
            ["Default.PropRegistry.json", "a.PropRegistry.json", "b.PropRegistry.json"] := by
  refine ⟨⟨E.TArraySort PropFileNames, hs.1, hs.2, sortDefaultFirst_eq E PropFileNames⟩,
    (perm_sortDefaultFirst E PropFileNames).trans hs.1, ?_⟩
  intro E' hs'
  have hperm : (E'.TArraySort
      ["b.PropRegistry.json", "Default.PropRegistry.json", "a.PropRegistry.json"]).Perm
      ["a.PropRegistry.json", "b.PropRegistry.json", "Default.PropRegistry.json"] :=
    hs'.1.trans (by decide)
  have hasc : Ascending
      ["a.PropRegistry.json", "b.PropRegistry.json", "Default.PropRegistry.json"] := by
    unfold Ascending
    decide
  have hno : NoTies
      ["b.PropRegistry.json", "Default.PropRegistry.json", "a.PropRegistry.json"] := by
    unfold NoTies
    decide
  have hsorted := eq_of_perm_of_ascending hperm hs'.2 hasc
    (NoTies_of_subset hno (fun _ hx => hs'.1.mem_iff.1 hx))
  rw [sortDefaultFirst_eq, hsorted]
  decide

/-- The hypothesis of `sortDefaultFirst_order` holds for the sort of the examples on the
three paths of the example, and the order is `Default`, `a`, `b`. -/
theorem sortDefaultFirst_order_witness :
    SortsArray (demoEngine [] [] true)
        ["b.PropRegistry.json", "Default.PropRegistry.json", "a.PropRegistry.json"] ∧
      sortDefaultFirst (demoEngine [] [] true)
          ["b.PropRegistry.json", "Default.PropRegistry.json", "a.PropRegistry.json"] =
        ["Default.PropRegistry.json", "a.PropRegistry.json", "b.PropRegistry.json"] :=
  have hs : SortsArray (demoEngine [] [] true)
      ["b.PropRegistry.json", "Default.PropRegistry.json", "a.PropRegistry.json"] := by
    unfold SortsArray Ascending
    decide
  ⟨hs, (sortDefaultFirst_order (demoEngine [] [] true)
    ["b.PropRegistry.json", "Default.PropRegistry.json", "a.PropRegistry.json"] hs).2.2
    (demoEngine [] [] true) hs⟩

end OrderTheorems

/-! ## Claims about the default file and about names -/

section DefaultFileTheorems

variable {κ : Type} [DecidableEq κ]

/-- C3, as stated, fails: with the default file and a user file `ADefault.PropRegistry.json`
the user file is processed first and the default file last, so the name `bench`, which the
user file defines as `Big` (3), ends with the default file's `Small` (1). -/
theorem default_overrides_user_file :
    DefaultPropFilePath (benchEngine demoEarlyPath) = demoDefaultPath ∧
      sortDefaultFirst (benchEngine demoEarlyPath) [demoDefaultPath, demoEarlyPath] =
        [demoEarlyPath, demoDefaultPath] ∧
      fileRecords (benchEngine demoEarlyPath) demoEarlyPath =
        [{ Name := "bench", Mesh := some ⟨"/Game/Bench"⟩, Size := 3 }] ∧
      loadedProps (benchEngine demoEarlyPath) [demoDefaultPath, demoEarlyPath] =
        [{ Name := "bench", Mesh := some ⟨"/Game/Bench"⟩, Size := 1 }] := by
  decide

/-- C3, amended: when the sort leaves the paths in ascending order of the comparison of
`FString`, which ignores letter case, and the default file `D` is less under that
comparison than every other path that contains the token `Default` in any letter case,
then `D` is processed before every other file, the other files follow in ascending order,
and every name that one of those files defines ends in the loader's result with the values
of the last of them that defines it. -/
theorem default_first_when_least (E : Engine κ) (PropFileNames : List String) (D : String)
    (hs : SortsArray E PropFileNames)
    (hmem : D ∈ PropFileNames)
    (hD : FStringContains D CommonAttributes.DEFAULT = true)
    (hleast :
      ∀ f ∈ PropFileNames, f ≠ D → FStringContains f CommonAttributes.DEFAULT = true →
        FStringLess D f = true) :
    sortDefaultFirst E PropFileNames = D :: (E.TArraySort PropFileNames).erase D ∧
      ((E.TArraySort PropFileNames).erase D).Perm (PropFileNames.erase D) ∧
      Ascending ((E.TArraySort PropFileNames).erase D) ∧
      ∀ n r,
        (((E.TArraySort PropFileNames).erase D).flatMap (fileRecords E)).reverse.find?
            (sameName E.key n) = some r →
          (loadedProps E PropFileNames).filter (sameName E.key n) = [r] := by
  have hfind := find?_isDefaultFile_of_least E hs hmem hD hleast
  have horder : sortDefaultFirst E PropFileNames = D :: (E.TArraySort PropFileNames).erase D := by
    rw [sortDefaultFirst_eq, hfind]
  refine ⟨horder, hs.1.erase D, List.Pairwise.sublist (List.erase_sublist D _) hs.2, ?_⟩
  intro n r hr
  rw [filter_loadedProps, mergeInput, horder, List.flatMap_cons, List.reverse_append,
    List.find?_append, hr]
  rfl

/-- The hypotheses of `default_first_when_least` hold for the default file next to
`user.PropRegistry.json`, and the user file's `Big` (3) wins. -/
theorem default_first_when_least_witness :
    sortDefaultFirst (benchEngine demoUserPath) [demoUserPath, demoDefaultPath] =
        [demoDefaultPath, demoUserPath] ∧
      (loadedProps (benchEngine demoUserPath) [demoUserPath, demoDefaultPath]).filter
          (sameName id "bench") =
        [{ Name := "bench", Mesh := some ⟨"/Game/Bench"⟩, Size := 3 }] := by
  have h := default_first_when_least (benchEngine demoUserPath) [demoUserPath, demoDefaultPath]
    demoDefaultPath
    (by
      unfold SortsArray Ascending
      decide)
    (by decide) (by decide) (by decide)
  have e : ((benchEngine demoUserPath).TArraySort [demoUserPath, demoDefaultPath]).erase
      demoDefaultPath = [demoUserPath] := by decide
  rw [e] at h
  exact ⟨h.1, h.2.2.2 "bench" _ (by decide)⟩

/-- C5: for every list of registry files and every content of those files, the collection
the loader passes to the definition builder has no two records with the same name, and no
two records whose names compare equal as keys of the index. -/
theorem loadedProps_names_nodup (E : Engine κ) (PropFileNames : List String) :
    ((loadedProps E PropFileNames).map (fun r => r.Name)).Nodup ∧
      ((loadedProps E PropFileNames).map (fun r => E.key r.Name)).Nodup := by
  have h : ((loadedProps E PropFileNames).map (nameKey E.key)).Nodup := by
    rw [loadedProps_eq, map_nameKey_foldl_upsertParams]
    exact foldl_keyStep_nodup (by simp) _
  refine ⟨?_, h⟩
  have h' : (((loadedProps E PropFileNames).map (fun r => r.Name)).map E.key).Nodup := by
    rw [List.map_map]
    exact h
  exact List.Nodup.of_map _ h'

end DefaultFileTheorems

/-! ## Claims about the writer -/

section WriterTheorems

variable {κ : Type} [DecidableEq κ]

theorem FieldKeysDistinct_demoEngine (disk : List (String × String))
    (codec : List (String × FJsonObject)) (saveOk : Bool) :
    FieldKeysDistinct (demoEngine disk codec saveOk).key :=
  FieldKeysDistinct_id

theorem mergedDocument_eq (E : Engine κ) (hk : FieldKeysDistinct E.key)
    (parsed : Option FJsonObject) (R : List (FPropParameters UStaticMesh)) :
    mergedDocument E parsed R =
      SetArrayField E.key (parsed.getD []) CommonAttributes.DEFINITIONS
        (R.foldl (upsertProp E) (baseDefinitions E parsed)) := by
  unfold mergedDocument
  rw [mergeProps_eq E hk]

theorem baseDefinitions_mergedDocument (E : Engine κ) (parsed : Option FJsonObject)
    (R : List (FPropParameters UStaticMesh)) :
    baseDefinitions E (some (mergedDocument E parsed R)) = mergeProps E parsed R :=
  definitions_mergedDocument E parsed R

/-- C4: for every base document `d` (parsed or not) and every list `R` of incoming records,
merging `R` into the document that results from merging `R` into `d` yields that same
document; merging `[r, r]` yields the same document as merging `[r]`; and after merging
`[r]` exactly one entry carries the name of `r` when at most one entry of `d` carried it.
The three field names are assumed pairwise different as keys of a JSON object. -/
theorem mergedDocument_idempotent (E : Engine κ) (hk : FieldKeysDistinct E.key)
    (d : Option FJsonObject) (R : List (FPropParameters UStaticMesh))
    (r : FPropParameters UStaticMesh) :
    mergedDocument E (some (mergedDocument E d R)) R = mergedDocument E d R ∧
      mergedDocument E d [r, r] = mergedDocument E d [r] ∧
      (((baseDefinitions E d).map (entryKey E.key)).count (E.key r.Name) ≤ 1 →
        ((GetArrayField E.key (mergedDocument E d [r]) CommonAttributes.DEFINITIONS).map
          (entryKey E.key)).count (E.key r.Name) = 1) := by
  refine ⟨?_, ?_, ?_⟩
  · rw [mergedDocument_eq E hk (some (mergedDocument E d R)), baseDefinitions_mergedDocument,
      mergeProps_eq E hk, foldl_upsertProp_idem E hk, mergedDocument_eq E hk d]
    simp only [Option.getD_some, SetArrayField]
    rw [TMapAdd_TMapAdd]
  · rw [mergedDocument_eq E hk, mergedDocument_eq E hk]
    have h := foldl_upsertProp_idem E hk [r] (baseDefinitions E d)
    simp only [List.foldl_cons, List.foldl_nil] at h ⊢
    rw [h]
  · intro hcount
    rw [definitions_mergedDocument, mergeProps_eq E hk, map_entryKey_foldl_upsertProp E hk]
    simp only [List.map_cons, List.map_nil, List.foldl_cons, List.foldl_nil, nameKey]
    unfold keyStep
    cases hp : lastPos (E.key r.Name) ((baseDefinitions E d).map (entryKey E.key)) with
    | some i =>
      have hmem : E.key r.Name ∈ (baseDefinitions E d).map (entryKey E.key) := by
        by_contra hc
        rw [(lastPos_eq_none_iff _ _).2 hc] at hp
        cases hp
      have := List.count_pos_iff.2 hmem
      simp only
      omega
    | none =>
      have hnot := (lastPos_eq_none_iff _ _).1 hp
      simp only
      rw [List.count_append, List.count_eq_zero_of_not_mem hnot]
      simp

/-- The hypothesis of `mergedDocument_idempotent` holds for verbatim comparison: an instance
with a base of two entries and two incoming records. -/
theorem mergedDocument_idempotent_witness :
    mergedDocument (demoEngine [] [] true)
        (some (mergedDocument (demoEngine [] [] true)
          (some (demoDocument [demoEntry "bench" "/Game/Bench" "Small",
            demoEntry "tree" "/Game/Tree" "Huge"]))
          [⟨"bench", ⟨"/Game/Bench2"⟩, 3⟩, ⟨"lamp", ⟨"/Game/Lamp"⟩, 0⟩]))
        [⟨"bench", ⟨"/Game/Bench2"⟩, 3⟩, ⟨"lamp", ⟨"/Game/Lamp"⟩, 0⟩] =
      mergedDocument (demoEngine [] [] true)
        (some (demoDocument [demoEntry "bench" "/Game/Bench" "Small",
          demoEntry "tree" "/Game/Tree" "Huge"]))
        [⟨"bench", ⟨"/Game/Bench2"⟩, 3⟩, ⟨"lamp", ⟨"/Game/Lamp"⟩, 0⟩] :=
  (mergedDocument_idempotent (demoEngine [] [] true) (FieldKeysDistinct_demoEngine [] [] true)
    (some (demoDocument [demoEntry "bench" "/Game/Bench" "Small",
      demoEntry "tree" "/Game/Tree" "Huge"]))
    [⟨"bench", ⟨"/Game/Bench2"⟩, 3⟩, ⟨"lamp", ⟨"/Game/Lamp"⟩, 0⟩]
    ⟨"bench", ⟨"/Game/Bench2"⟩, 3⟩).1

/-- C6, as stated, fails: a base document that holds the name `bench` twice still holds it
twice after the writer merged a record for `bench` into it. -/
theorem mergedDocument_keeps_duplicates :
    (GetArrayField id
        (mergedDocument (demoEngine [] [] true)
          (some (demoDocument [demoEntry "bench" "/Game/Bench" "Small",
            demoEntry "bench" "/Game/Bench" "Medium"]))
          [⟨"bench", ⟨"/Game/Bench2"⟩, 3⟩])
        CommonAttributes.DEFINITIONS).map
      (fun v => GetStringField id (AsObject v) PropAttributes.NAME) = ["bench", "bench"] := by
  decide

/-- C6, amended: for every base document whose definitions array has no two entries with
the same name (as names are compared by the index) and every list of incoming records, the
definitions array of the document the writer produces has no two entries with the same
name.  The three field names are assumed pairwise different as keys of a JSON object. -/
theorem mergedDocument_names_nodup (E : Engine κ) (hk : FieldKeysDistinct E.key)
    (d : Option FJsonObject) (R : List (FPropParameters UStaticMesh))
    (hbase : ((baseDefinitions E d).map
      (fun v => E.key (GetStringField E.key (AsObject v) PropAttributes.NAME))).Nodup) :
    ((GetArrayField E.key (mergedDocument E d R) CommonAttributes.DEFINITIONS).map
        (fun v => GetStringField E.key (AsObject v) PropAttributes.NAME)).Nodup ∧
      ((GetArrayField E.key (mergedDocument E d R) CommonAttributes.DEFINITIONS).map
        (fun v => E.key (GetStringField E.key (AsObject v) PropAttributes.NAME))).Nodup := by
  have h : ((GetArrayField E.key (mergedDocument E d R) CommonAttributes.DEFINITIONS).map
      (entryKey E.key)).Nodup := by
    rw [definitions_mergedDocument, mergeProps_eq E hk, map_entryKey_foldl_upsertProp E hk]
    exact foldl_keyStep_nodup hbase _
  refine ⟨?_, h⟩
  have h' : (((GetArrayField E.key (mergedDocument E d R) CommonAttributes.DEFINITIONS).map
      (fun v => GetStringField E.key (AsObject v) PropAttributes.NAME)).map E.key).Nodup := by
    rw [List.map_map]
    exact h
  exact List.Nodup.of_map _ h'

/-- The hypotheses of `mergedDocument_names_nodup` hold for a base with the two names
`bench` and `tree` under verbatim comparison. -/
theorem mergedDocument_names_nodup_witness :
    ((GetArrayField id
        (mergedDocument (demoEngine [] [] true)
          (some (demoDocument [demoEntry "bench" "/Game/Bench" "Small",
            demoEntry "tree" "/Game/Tree" "Huge"]))
          [⟨"bench", ⟨"/Game/Bench2"⟩, 3⟩, ⟨"lamp", ⟨"/Game/Lamp"⟩, 0⟩])
        CommonAttributes.DEFINITIONS).map
      (fun v => GetStringField id (AsObject v) PropAttributes.NAME)).Nodup :=
  (mergedDocument_names_nodup (demoEngine [] [] true) (FieldKeysDistinct_demoEngine [] [] true)
    (some (demoDocument [demoEntry "bench" "/Game/Bench" "Small",
      demoEntry "tree" "/Game/Tree" "Huge"]))
    [⟨"bench", ⟨"/Game/Bench2"⟩, 3⟩, ⟨"lamp", ⟨"/Game/Lamp"⟩, 0⟩] (by decide)).1

/-- C7: for every parsable base document and every list of incoming records, the top-level
fields other than `definitions` of the document the writer serializes are exactly those of
the base document, with the same names, values and order; in particular every such field
reads the same in both, and a field absent from the base is absent from the output.  An
extra field `"version": 3` is still `"version": 3` after one new record was written. -/
theorem mergedDocument_preserves_fields (E : Engine κ) (d : FJsonObject)
    (R : List (FPropParameters UStaticMesh)) :
    (mergedDocument E (some d) R).filter
        (fun e => decide (E.key e.1 ≠ E.key CommonAttributes.DEFINITIONS)) =
      d.filter (fun e => decide (E.key e.1 ≠ E.key CommonAttributes.DEFINITIONS)) ∧
    (∀ field, E.key field ≠ E.key CommonAttributes.DEFINITIONS →
      TMapFind E.key (mergedDocument E (some d) R) field = TMapFind E.key d field) ∧
    mergedDocument (demoEngine [] [] true)
        (some [("version", .number "3"), ("definitions", .array [])])
        [⟨"bench", ⟨"/Game/Bench"⟩, 1⟩] =
      [("version", .number "3"),
        ("definitions", .array [demoEntry "bench" "/Game/Bench" "Small"])] := by
  refine ⟨?_, ?_, rfl⟩
  · exact TMapAdd_filter E.key d _ _
  · intro field hf
    unfold mergedDocument SetArrayField
    rw [TMapFind_TMapAdd, if_neg (Ne.symm hf)]
    rfl

/-- C8 on the code: a string that is the name of no enumerator makes `GetIndexByName`
return `INDEX_NONE`, and `StringToPropSizeType` returns that index cast to the enum, which
is 255; this is not `EPropSize::INVALID` unless that enumerator has the value 255. -/
theorem StringToPropSizeType_unknown (key : String → κ) (EnumPtr : UEnum)
    (INVALID : EPropSize) (PropSize : String)
    (h : ∀ n ∈ EnumPtr.Names, key n ≠ key PropSize) :
    StringToPropSizeType key (some EnumPtr) INVALID PropSize = 255 ∧
      (INVALID ≠ 255 → StringToPropSizeType key (some EnumPtr) INVALID PropSize ≠ INVALID) := by
  have h255 : StringToPropSizeType key (some EnumPtr) INVALID PropSize = 255 := by
    unfold StringToPropSizeType UEnum.GetIndexByName
    simp only
    rw [indexByName_of_not_mem key _ _ _ h, castToEPropSize_INDEX_NONE]
  exact ⟨h255, fun hI e => hI (e ▸ h255)⟩

/-- The string `Colossal` is no enumerator of the example table, where `INVALID` is 6: the
conversion yields 255, which is not `INVALID`. -/
theorem StringToPropSizeType_unknown_witness :
    StringToPropSizeType id (some demoEnum) 6 "Colossal" = 255 ∧
      StringToPropSizeType id (some demoEnum) 6 "Colossal" ≠ 6 :=
  ⟨(StringToPropSizeType_unknown id demoEnum 6 "Colossal" (by decide)).1,
    (StringToPropSizeType_unknown id demoEnum 6 "Colossal" (by decide)).2 (by decide)⟩

/-- C9, as stated, fails: the value the caller receives when the write fails is the value
it receives when the write succeeds, so no reading of the returned value tells a failed
write from a successful one. -/
theorem write_failure_not_reported :
    (demoEngine [] [] false).SaveStringToFile (OutputString (demoEngine [] [] false) [])
        (DefaultPropFilePath (demoEngine [] [] false)) = false ∧
      (demoEngine [] [] true).SaveStringToFile (OutputString (demoEngine [] [] true) [])
        (DefaultPropFilePath (demoEngine [] [] true)) = true ∧
      ¬ ∃ report : Unit → Bool,
        report (AddToCarlaBlueprintRegistry (demoEngine [] [] false) []) = true ∧
          report (AddToCarlaBlueprintRegistry (demoEngine [] [] true) []) = false := by
  refine ⟨rfl, rfl, ?_⟩
  rintro ⟨report, h1, h2⟩
  have e : AddToCarlaBlueprintRegistry (demoEngine [] [] false) [] =
      AddToCarlaBlueprintRegistry (demoEngine [] [] true) [] := rfl
  rw [e, h2] at h1
  cases h1

/-- C9, amended: the writer returns nothing to its caller; the value the caller receives
does not depend on what `SaveStringToFile` returns, on any input. -/
theorem AddToCarlaBlueprintRegistry_result_ignores_save (E : Engine κ)
    (SaveStringToFile : String → String → Bool)
    (PropParametersArray : List (FPropParameters UStaticMesh)) :
    AddToCarlaBlueprintRegistry { E with SaveStringToFile := SaveStringToFile }
        PropParametersArray =
      AddToCarlaBlueprintRegistry E PropParametersArray :=
  rfl

/-- C10: for every record whose size is a named value of the size enum (the reflection
object is found, its names are pairwise different, and the size is the index of one of
them), the JSON object the writer fills for it, whether new or already present, is read back
by the loader's record parser with the same name, the same path string and the same size;
in particular `StringToPropSizeType (PropSizeTypeToString s) = s`.  The three field names
are assumed pairwise different as keys of a JSON object. -/
theorem readPropFields_fillPropJson (E : Engine κ) (hk : FieldKeysDistinct E.key)
    (EnumPtr : UEnum) (hfound : E.FindObject = some EnumPtr)
    (hnames : (EnumPtr.Names.map E.key).Nodup)
    (PropJsonObject : FJsonObject) (PropParameter : FPropParameters UStaticMesh)
    (hsize : PropParameter.Size < EnumPtr.Names.length) (hbyte : PropParameter.Size < 256) :
    readPropFields E (.object (fillPropJson E PropJsonObject PropParameter)) =
        (PropParameter.Name, PropParameter.Mesh.PathName, PropParameter.Size) ∧
      StringToPropSizeType E.key E.FindObject E.INVALID
          (PropSizeTypeToString E.FindObject PropParameter.Size) = PropParameter.Size := by
  have hround : StringToPropSizeType E.key E.FindObject E.INVALID
      (PropSizeTypeToString E.FindObject PropParameter.Size) = PropParameter.Size := by
    rw [hfound]
    exact StringToPropSizeType_PropSizeTypeToString E.key EnumPtr _ _ hnames hsize hbyte
  refine ⟨?_, hround⟩
  unfold readPropFields
  simp only [AsObject]
  rw [fillPropJson_name E hk, fillPropJson_path E hk, fillPropJson_size, hround]

/-- The hypotheses of `readPropFields_fillPropJson` hold for the example table and the
size `Big` (3): the new object written for `bench` reads back as it was given. -/
theorem readPropFields_fillPropJson_witness :
    readPropFields (demoEngine [] [] true)
        (.object (fillPropJson (demoEngine [] [] true) [] ⟨"bench", ⟨"/Game/Bench"⟩, 3⟩)) =
      ("bench", "/Game/Bench", 3) :=
  (readPropFields_fillPropJson (demoEngine [] [] true) (FieldKeysDistinct_demoEngine [] [] true)
    demoEnum rfl (by decide) [] ⟨"bench", ⟨"/Game/Bench"⟩, 3⟩ (by decide) (by decide)).1

end WriterTheorems

/-! ## The sequence of names after a merge -/

section KeySequence

variable {κ : Type} [DecidableEq κ]

theorem mem_of_lastPos_eq_some {c : κ} {ks : List κ} {i : Nat} (h : lastPos c ks = some i) :
    c ∈ ks := by
  by_contra hc
  rw [(lastPos_eq_none_iff c ks).2 hc] at h
  cases h

theorem keyStep_of_mem {ks : List κ} {c : κ} (h : c ∈ ks) : keyStep ks c = ks := by
  unfold keyStep
  cases hp : lastPos c ks with
  | some i => rfl
  | none => exact absurd h ((lastPos_eq_none_iff c ks).1 hp)

theorem keyStep_of_not_mem {ks : List κ} {c : κ} (h : c ∉ ks) : keyStep ks c = ks ++ [c] := by
  unfold keyStep
  rw [(lastPos_eq_none_iff c ks).2 h]

theorem foldl_keyStep_eq (ks cs : List κ) :
    cs.foldl keyStep ks = ks ++ (firstKeys cs).filter (fun c => decide (c ∉ ks)) := by
  induction cs generalizing ks with
  | nil => simp [firstKeys]
  | cons c cs ih =>
    rw [List.foldl_cons, ih, firstKeys, List.filter_cons]
    by_cases hc : c ∈ ks
    · rw [keyStep_of_mem hc]
      have h1 : decide (c ∉ ks) = false := by simpa using hc
      rw [h1, List.filter_filter]
      congr 1
      apply List.filter_congr
      intro d _
      by_cases hd : d ∈ ks
      · simp [hd]
      · have : d ≠ c := fun e => hd (e ▸ hc)
        simp [hd, this]
    · rw [keyStep_of_not_mem hc]
      have h1 : decide (c ∉ ks) = true := by simpa using hc
      rw [h1, List.append_assoc, List.singleton_append, List.filter_filter]
      congr 2
      apply List.filter_congr
      intro d _
      by_cases hd : d ∈ ks
      · simp [hd]
      · by_cases hdc : d = c
        · simp [hdc]
        · simp [hd, hdc]

theorem foldl_keyStep_nil (cs : List κ) : cs.foldl keyStep [] = firstKeys cs := by
  rw [foldl_keyStep_eq]
  simp

theorem firstKeys_subset {α : Type} [DecidableEq α] (cs : List α) (c : α)
    (h : c ∈ firstKeys cs) : c ∈ cs := by
  induction cs with
  | nil => simp [firstKeys] at h
  | cons d cs ih =>
    rw [firstKeys, List.mem_cons] at h
    rcases h with h | h
    · exact h ▸ List.mem_cons_self _ _
    · exact List.mem_cons_of_mem _ (ih (List.mem_of_mem_filter h))

theorem firstKeys_map {α β : Type} [DecidableEq α] [DecidableEq β] (f : α → β)
    (hf : Function.Injective f) (l : List α) :
    firstKeys (l.map f) = (firstKeys l).map f := by
  induction l with
  | nil => rfl
  | cons a l ih =>
    rw [List.map_cons, firstKeys, firstKeys, List.map_cons, ih, List.filter_map]
    congr 2
    apply List.filter_congr
    intro d _
    simp [hf.eq_iff]

theorem filter_not_mem_map {α β : Type} [DecidableEq α] [DecidableEq β] (f : α → β)
    (hf : Function.Injective f) (l m : List α) :
    (l.map f).filter (fun c => decide (c ∉ m.map f)) =
      (l.filter (fun a => decide (a ∉ m))).map f := by
  rw [List.filter_map]
  congr 1
  apply List.filter_congr
  intro d _
  have h : f d ∈ m.map f ↔ d ∈ m := List.mem_map_of_injective hf
  by_cases hd : d ∈ m
  · have h' : f d ∈ m.map f := h.2 hd
    simp only [Function.comp_apply, hd, h', not_true_eq_false, decide_False]
  · have h' : f d ∉ m.map f := fun e => hd (h.1 e)
    simp only [Function.comp_apply, hd, h', not_false_eq_true, decide_True]

theorem map_entryName_key (key : String → κ) (arr : List FJsonValue) :
    (arr.map (entryName key)).map key = arr.map (entryKey key) := by
  rw [List.map_map]
  rfl

end KeySequence

/-! ## Merging into an empty base -/

section EmptyBase

variable {κ : Type} [DecidableEq κ]

theorem fillPropJson_nil (E : Engine κ) (hk : FieldKeysDistinct E.key)
    (q : FPropParameters UStaticMesh) : fillPropJson E [] q = propJson E q := by
  obtain ⟨h12, h13, h23⟩ := hk
  simp only [fillPropJson, SetStringField, TMapAdd, propJson, if_neg h12, if_neg h13,
    if_neg h23]

theorem foldl_upsertProp_form (E : Engine κ) (hk : FieldKeysDistinct E.key)
    (R : List (FPropParameters UStaticMesh)) (arr : List FJsonValue)
    (h : ∀ v ∈ arr, ∃ q, v = FJsonValue.object (propJson E q)) :
    ∀ v ∈ R.foldl (upsertProp E) arr, ∃ q, v = FJsonValue.object (propJson E q) := by
  induction R generalizing arr with
  | nil => exact h
  | cons p R ih =>
    rw [List.foldl_cons]
    apply ih
    intro v hv
    unfold upsertProp at hv
    cases hi : lastPos (E.key p.Name) (arr.map (entryKey E.key)) with
    | some i =>
      rw [hi] at hv
      rcases List.mem_or_eq_of_mem_set hv with hv | hv
      · exact h v hv
      · have hlt : i < arr.length := by simpa using lastPos_lt hi
        obtain ⟨q, hq⟩ := h arr[i] (List.getElem_mem hlt)
        refine ⟨p, ?_⟩
        rw [hv, List.getD_eq_getElem _ _ hlt, hq, AsObject, ← fillPropJson_nil E hk q,
          fillPropJson_fillPropJson E hk, fillPropJson_nil E hk]
    | none =>
      rw [hi] at hv
      rcases List.mem_append.1 hv with hv | hv
      · exact h v hv
      · refine ⟨p, ?_⟩
        rw [List.mem_singleton.1 hv, fillPropJson_nil E hk]

theorem refill_eq_map (E : Engine κ) (X : List (FPropParameters UStaticMesh))
    (arr : List FJsonValue) (hnd : (arr.map (entryKey E.key)).Nodup) :
    refill E X arr = arr.map (refillEntry E X) := by
  induction arr with
  | nil => rfl
  | cons e es ih =>
    rw [List.map_cons, List.nodup_cons] at hnd
    rw [refill, if_neg hnd.1, ih hnd.2, List.map_cons]

theorem eq_of_map_eq_self {α : Type} (f : α → α) (l : List α) (h : l.map f = l) :
    ∀ x ∈ l, f x = x := by
  induction l with
  | nil => intro x hx; cases hx
  | cons a l ih =>
    rw [List.map_cons, List.cons.injEq] at h
    intro x hx
    rcases List.mem_cons.1 hx with rfl | hx
    · exact h.1
    · exact ih h.2 x hx

theorem lastRecord_isSome_of_mem (key : String → κ) (c : κ)
    (X : List (FPropParameters UStaticMesh)) (h : c ∈ X.map (nameKey key)) :
    ∃ q, lastRecord key c X = some q := by
  obtain ⟨p, hp, hpc⟩ := List.mem_map.1 h
  unfold lastRecord
  cases hf : X.reverse.find? (fun q => decide (key q.Name = c)) with
  | some q => exact ⟨q, rfl⟩
  | none =>
    have := List.find?_eq_none.1 hf p (List.mem_reverse.2 hp)
    simp only [decide_eq_true_eq] at this
    exact absurd hpc this

theorem foldl_upsertProp_nil_entries (E : Engine κ) (hk : FieldKeysDistinct E.key)
    (R : List (FPropParameters UStaticMesh)) :
    ∀ v ∈ R.foldl (upsertProp E) [],
      ∃ q, lastRecord E.key (entryKey E.key v) R = some q ∧
        v = FJsonValue.object (propJson E q) := by
  intro v hv
  have hkeys : (R.foldl (upsertProp E) []).map (entryKey E.key) =
      firstKeys (R.map (nameKey E.key)) := by
    rw [map_entryKey_foldl_upsertProp E hk, List.map_nil, foldl_keyStep_nil]
  have hnd : ((R.foldl (upsertProp E) []).map (entryKey E.key)).Nodup := by
    rw [map_entryKey_foldl_upsertProp E hk]
    exact foldl_keyStep_nodup (by simp) _
  have hfix := refill_foldl_upsertProp E hk R []
  rw [refill_eq_map E R _ hnd] at hfix
  have hv' := eq_of_map_eq_self _ _ hfix v hv
  have hmem : entryKey E.key v ∈ R.map (nameKey E.key) := by
    apply firstKeys_subset
    rw [← hkeys]
    exact List.mem_map.2 ⟨v, hv, rfl⟩
  obtain ⟨q, hq⟩ := lastRecord_isSome_of_mem E.key _ R hmem
  obtain ⟨q0, hq0⟩ := foldl_upsertProp_form E hk R [] (by simp) v hv
  refine ⟨q, hq, ?_⟩
  unfold refillEntry at hv'
  rw [hq] at hv'
  simp only at hv'
  rw [← hv', hq0, AsObject, ← fillPropJson_nil E hk q0, fillPropJson_fillPropJson E hk,
    fillPropJson_nil E hk]

theorem mergeProps_none_eq_some_nil (E : Engine κ) (R : List (FPropParameters UStaticMesh)) :
    mergeProps E none R = mergeProps E (some []) R := rfl

end EmptyBase

/-! ## The spelling of the names of updated entries -/

section Spelling

variable {κ : Type} [DecidableEq κ]

theorem getElem?_upsertProp_name (E : Engine κ) (hk : FieldKeysDistinct E.key)
    (arr : List FJsonValue) (p : FPropParameters UStaticMesh) (i : Nat) (v : FJsonValue)
    (hv : arr[i]? = some v) :
    ∃ v' : FJsonValue, (upsertProp E arr p)[i]? = some v' ∧
      entryKey E.key v' = entryKey E.key v ∧
      (entryName E.key v' = entryName E.key v ∨ entryName E.key v' = p.Name) := by
  have hlt : i < arr.length := by
    by_contra hge
    rw [List.getElem?_eq_none (by omega)] at hv
    cases hv
  unfold upsertProp
  cases hi : lastPos (E.key p.Name) (arr.map (entryKey E.key)) with
  | some i' =>
    simp only
    by_cases hii : i' = i
    · subst hii
      have hk' := lastPos_getElem? hi
      rw [List.getElem?_map, hv] at hk'
      refine ⟨_, by rw [List.getElem?_set, if_pos rfl, if_pos hlt], ?_, Or.inr ?_⟩
      · rw [entryKey_fillPropJson E hk]
        exact (Option.some.inj hk').symm
      · unfold entryName
        rw [AsObject, fillPropJson_name E hk]
    · exact ⟨v, by rw [List.getElem?_set, if_neg hii, hv], rfl, Or.inl rfl⟩
  | none =>
    simp only
    exact ⟨v, by rw [List.getElem?_append_left hlt, hv], rfl, Or.inl rfl⟩

theorem getElem?_foldl_upsertProp_name (E : Engine κ) (hk : FieldKeysDistinct E.key)
    (R : List (FPropParameters UStaticMesh)) (arr : List FJsonValue) (i : Nat)
    (v : FJsonValue) (hv : arr[i]? = some v) :
    ∃ v' : FJsonValue, (R.foldl (upsertProp E) arr)[i]? = some v' ∧
      entryKey E.key v' = entryKey E.key v ∧
      (entryName E.key v' = entryName E.key v ∨
        ∃ q ∈ R, entryName E.key v' = q.Name) := by
  induction R generalizing arr v with
  | nil => exact ⟨v, hv, rfl, Or.inl rfl⟩
  | cons p R ih =>
    obtain ⟨v1, h1, hk1, hn1⟩ := getElem?_upsertProp_name E hk arr p i v hv
    obtain ⟨v', h2, hk2, hn2⟩ := ih (upsertProp E arr p) v1 h1
    rw [List.foldl_cons]
    refine ⟨v', h2, hk2.trans hk1, ?_⟩
    rcases hn2 with hn2 | ⟨q, hq, hn2⟩
    · rcases hn1 with hn1 | hn1
      · exact Or.inl (hn2.trans hn1)
      · exact Or.inr ⟨p, List.mem_cons_self p R, hn2.trans hn1⟩
    · exact Or.inr ⟨q, List.mem_cons_of_mem p hq, hn2⟩

end Spelling

/-! ## Claims about the order of the merged entries -/

section SequenceTheorems

variable {κ : Type} [DecidableEq κ]

/-- C11: when the base file is absent or unreadable (its text is then empty and does not
parse) or unparsable, the writer has no parsed base, and for every list of incoming records
it then produces the same document as for the empty document: the only top-level field is
`definitions`; its array has one entry per distinct incoming name, in order of first
appearance in the input (also as plain strings when the comparison of names is verbatim),
and every entry is the JSON object of the last incoming record of its name.  The three
field names are assumed pairwise different as keys of a JSON object. -/
theorem mergedDocument_without_base (E : Engine κ) (hk : FieldKeysDistinct E.key)
    (R : List (FPropParameters UStaticMesh)) :
    (E.LoadFileToString (DefaultPropFilePath E) = none → E.Deserialize "" = none →
        parsedBase E = none) ∧
      (∀ text, E.LoadFileToString (DefaultPropFilePath E) = some text →
        E.Deserialize text = none → parsedBase E = none) ∧
      mergedDocument E none R = mergedDocument E (some []) R ∧
      mergedDocument E none R =
        [(CommonAttributes.DEFINITIONS, FJsonValue.array (mergeProps E none R))] ∧
      (mergeProps E none R).map (entryKey E.key) = firstKeys (R.map (nameKey E.key)) ∧
      (Function.Injective E.key →
        (mergeProps E none R).map (entryName E.key) = firstKeys (R.map (fun q => q.Name))) ∧
      ∀ v ∈ mergeProps E none R,
        ∃ q, lastRecord E.key (entryKey E.key v) R = some q ∧
          v = FJsonValue.object (propJson E q) := by
  have hkeys : (mergeProps E none R).map (entryKey E.key) =
      firstKeys (R.map (nameKey E.key)) := by
    rw [mergeProps_eq E hk]
    show (R.foldl (upsertProp E) []).map (entryKey E.key) = _
    rw [map_entryKey_foldl_upsertProp E hk, List.map_nil, foldl_keyStep_nil]
  refine ⟨?_, ?_, rfl, rfl, hkeys, ?_, ?_⟩
  · intro h1 h2
    unfold parsedBase
    rw [h1]
    exact h2
  · intro text h1 h2
    unfold parsedBase
    rw [h1]
    exact h2
  · intro hinj
    apply List.map_injective_iff.2 hinj
    rw [map_entryName_key, hkeys, ← firstKeys_map E.key hinj, List.map_map]
    rfl
  · rw [mergeProps_eq E hk]
    exact foldl_upsertProp_nil_entries E hk R

/-- The hypothesis of `mergedDocument_without_base` holds for verbatim comparison: with no
base, `bench`, `lamp`, `bench` gives the entries `bench` (with the values of the second
`bench` record) and `lamp`. -/
theorem mergedDocument_without_base_witness :
    mergedDocument (demoEngine [] [] true) none
        [⟨"bench", ⟨"/Game/Bench"⟩, 1⟩, ⟨"lamp", ⟨"/Game/Lamp"⟩, 0⟩,
          ⟨"bench", ⟨"/Game/Bench2"⟩, 3⟩] =
      [("definitions", FJsonValue.array
        [demoEntry "bench" "/Game/Bench2" "Big", demoEntry "lamp" "/Game/Lamp" "Tiny"])] ∧
    (mergeProps (demoEngine [] [] true) none
        [⟨"bench", ⟨"/Game/Bench"⟩, 1⟩, ⟨"lamp", ⟨"/Game/Lamp"⟩, 0⟩,
          ⟨"bench", ⟨"/Game/Bench2"⟩, 3⟩]).map (entryName id) = ["bench", "lamp"] :=
  ⟨rfl,
    ((mergedDocument_without_base (demoEngine [] [] true)
      (FieldKeysDistinct_demoEngine [] [] true)
      [⟨"bench", ⟨"/Game/Bench"⟩, 1⟩, ⟨"lamp", ⟨"/Game/Lamp"⟩, 0⟩,
        ⟨"bench", ⟨"/Game/Bench2"⟩, 3⟩]).2.2.2.2.2.1 (fun _ _ h => h)).trans (by decide)⟩

/-- C13, as stated, fails: the index compares names ignoring letter case, and an entry that
is updated is written with the spelling of the incoming record.  Merging the record `bench`
into a base whose only entry is `Bench` gives the single entry `bench`: the base's sequence
of names is not unchanged. -/
theorem mergedDocument_takes_incoming_spelling :
    (baseDefinitions (foldEngine [] [])
        (some (demoDocument [demoEntry "Bench" "/Game/Bench" "Small"]))).map
        (entryName caseFold) = ["Bench"] ∧
      (GetArrayField caseFold
        (mergedDocument (foldEngine [] [])
          (some (demoDocument [demoEntry "Bench" "/Game/Bench" "Small"]))
          [⟨"bench", ⟨"/Game/Bench"⟩, 3⟩])
        CommonAttributes.DEFINITIONS).map (entryName caseFold) = ["bench"] ∧
      mergedDocument (foldEngine [] [])
          (some (demoDocument [demoEntry "Bench" "/Game/Bench" "Small"]))
          [⟨"bench", ⟨"/Game/Bench"⟩, 3⟩] =
        demoDocument [demoEntry "bench" "/Game/Bench" "Big"] :=
  ⟨by decide, by decide, rfl⟩

/-- C13, amended: for every base document (its names need not even be pairwise distinct)
and every list of incoming records, the sequence of names in the writer's output
definitions array, with names taken as the index compares them (letter case ignored), is
the base's sequence of names, in the same positions, followed by the incoming names that
are absent from the base, each once, in order of first appearance in the input; so the
output length is the base length plus the number of distinct new names.  The entry at a
position of the base carries the base's spelling of its name or the spelling of an
incoming record whose name the index takes for the same.  The three field names are
assumed pairwise different as keys of a JSON object. -/
theorem mergedDocument_name_sequence (E : Engine κ) (hk : FieldKeysDistinct E.key)
    (d : Option FJsonObject) (R : List (FPropParameters UStaticMesh)) :
    (GetArrayField E.key (mergedDocument E d R) CommonAttributes.DEFINITIONS).map
        (entryKey E.key) =
      (baseDefinitions E d).map (entryKey E.key) ++
        (firstKeys (R.map (nameKey E.key))).filter
          (fun c => decide (c ∉ (baseDefinitions E d).map (entryKey E.key))) ∧
    (∀ (i : Nat) (v : FJsonValue), (baseDefinitions E d)[i]? = some v →
      ∃ v' : FJsonValue,
        (GetArrayField E.key (mergedDocument E d R) CommonAttributes.DEFINITIONS)[i]? =
            some v' ∧
          (entryName E.key v' = entryName E.key v ∨
            ∃ q ∈ R, entryName E.key v' = q.Name ∧ E.key q.Name = entryKey E.key v)) ∧
    (GetArrayField E.key (mergedDocument E d R) CommonAttributes.DEFINITIONS).length =
      (baseDefinitions E d).length +
        ((firstKeys (R.map (nameKey E.key))).filter
          (fun c => decide (c ∉ (baseDefinitions E d).map (entryKey E.key)))).length := by
  have hkeys : (GetArrayField E.key (mergedDocument E d R) CommonAttributes.DEFINITIONS).map
      (entryKey E.key) =
      (baseDefinitions E d).map (entryKey E.key) ++
        (firstKeys (R.map (nameKey E.key))).filter
          (fun c => decide (c ∉ (baseDefinitions E d).map (entryKey E.key))) := by
    rw [definitions_mergedDocument, mergeProps_eq E hk, map_entryKey_foldl_upsertProp E hk,
      foldl_keyStep_eq]
  refine ⟨hkeys, ?_, ?_⟩
  · intro i v hv
    rw [definitions_mergedDocument, mergeProps_eq E hk]
    obtain ⟨v', h1, h2, h3⟩ := getElem?_foldl_upsertProp_name E hk R _ i v hv
    refine ⟨v', h1, ?_⟩
    rcases h3 with h3 | ⟨q, hq, h3⟩
    · exact Or.inl h3
    · refine Or.inr ⟨q, hq, h3, ?_⟩
      rw [← h2, ← h3]
      rfl
  · have h := congrArg List.length hkeys
    rw [List.length_map, List.length_append, List.length_map] at h
    exact h

/-- The hypothesis of `mergedDocument_name_sequence` holds when names are compared ignoring
case: merging `lamp`, `bench`, `LAMP` into a base with `Bench` and `tree` gives three
entries, which the index reads as `bench`, `tree`, `lamp`. -/
theorem mergedDocument_name_sequence_witness :
    (GetArrayField caseFold
        (mergedDocument (foldEngine [] [])
          (some (demoDocument [demoEntry "Bench" "/Game/Bench" "Small",
            demoEntry "tree" "/Game/Tree" "Huge"]))
          [⟨"lamp", ⟨"/Game/Lamp"⟩, 0⟩, ⟨"bench", ⟨"/Game/Bench2"⟩, 3⟩,
            ⟨"LAMP", ⟨"/Game/Lamp2"⟩, 1⟩])
        CommonAttributes.DEFINITIONS).map (entryKey caseFold) =
      ["bench".data, "tree".data, "lamp".data] :=
  (mergedDocument_name_sequence (foldEngine [] [])
    (by
      unfold FieldKeysDistinct
      decide)
    (some (demoDocument [demoEntry "Bench" "/Game/Bench" "Small",
      demoEntry "tree" "/Game/Tree" "Huge"]))
    [⟨"lamp", ⟨"/Game/Lamp"⟩, 0⟩, ⟨"bench", ⟨"/Game/Bench2"⟩, 3⟩,
      ⟨"LAMP", ⟨"/Game/Lamp2"⟩, 1⟩]).1.trans (by decide)

/-- C14, as stated, fails: the index compares names ignoring letter case, and a record that
overrides another replaces it together with its name.  When the default file defines
`Bench` and the user file defines `bench`, the name appears first as `Bench`, and the
loader's result holds the one name `bench`. -/
theorem loadedProps_takes_last_spelling :
    (mergeInput spellingEngine [demoUserPath, demoDefaultPath]).map (fun r => r.Name) =
        ["Bench", "bench"] ∧
      (loadedProps spellingEngine [demoUserPath, demoDefaultPath]).map (fun r => r.Name) =
        ["bench"] := by
  decide

/-- C14, amended: for every list of registry files and their contents, the sequence of
names in the loader's result, with names taken as the index compares them (letter case
ignored), is the sequence of distinct names in order of their first appearance in the
concatenation of the files' definitions arrays taken in processing order; every record of
the result is the last record of that concatenation that carries its name, with the
spelling of that record.  When the default file defines `bench`, `tree` and the user file
defines `lamp`, `bench`, the result is `bench`, `tree`, `lamp`: the overridden `bench`
keeps its place. -/
theorem loadedProps_name_sequence (E : Engine κ) (PropFileNames : List String) :
    (loadedProps E PropFileNames).map (nameKey E.key) =
        firstKeys ((mergeInput E PropFileNames).map (nameKey E.key)) ∧
      (∀ r ∈ loadedProps E PropFileNames,
        (mergeInput E PropFileNames).reverse.find? (sameName E.key r.Name) = some r) ∧
      loadedProps orderEngine [demoUserPath, demoDefaultPath] =
        [{ Name := "bench", Mesh := some ⟨"/Game/Bench2"⟩, Size := 3 },
          { Name := "tree", Mesh := some ⟨"/Game/Tree"⟩, Size := 4 },
          { Name := "lamp", Mesh := some ⟨"/Game/Lamp"⟩, Size := 0 }] := by
  have hkeys : (loadedProps E PropFileNames).map (nameKey E.key) =
      firstKeys ((mergeInput E PropFileNames).map (nameKey E.key)) := by
    rw [loadedProps_eq, map_nameKey_foldl_upsertParams, List.map_nil, foldl_keyStep_nil]
  refine ⟨hkeys, ?_, by decide⟩
  intro r hr
  have hmem : r ∈ (loadedProps E PropFileNames).filter (sameName E.key r.Name) :=
    List.mem_filter.2 ⟨hr, by simp [sameName]⟩
  rw [filter_loadedProps] at hmem
  cases hf : (mergeInput E PropFileNames).reverse.find? (sameName E.key r.Name) with
  | none =>
    rw [hf] at hmem
    cases hmem
  | some r' =>
    rw [hf] at hmem
    rw [List.mem_singleton.1 hmem]

end SequenceTheorems

/-! ## Files that contribute nothing -/

section SkippedFiles

variable {κ : Type} [DecidableEq κ]

theorem fileDefinitions_eq_nil (E : Engine κ) (bad : String)
    (hbad : E.LoadFileToString bad = none ∨
      (∃ text, E.LoadFileToString bad = some text ∧ E.Deserialize text = none) ∨
      (∃ text o, E.LoadFileToString bad = some text ∧ E.Deserialize text = some o ∧
        ∀ items, TMapFind E.key o CommonAttributes.DEFINITIONS ≠
          some (FJsonValue.array items))) :
    fileDefinitions E bad = [] := by
  unfold fileDefinitions
  rcases hbad with h | ⟨text, h1, h2⟩ | ⟨text, o, h1, h2, h3⟩
  · rw [h]
  · rw [h1]
    simp only
    rw [h2]
  · rw [h1]
    simp only
    rw [h2]
    simp only
    unfold GetArrayField
    split
    · rename_i items hitems
      exact absurd hitems (h3 items)
    · rfl

theorem flatMap_filter_of_nil {α β : Type} [DecidableEq α] (g : α → List β) (bad : α)
    (h : g bad = []) (l : List α) :
    (l.filter (fun f => decide (f ≠ bad))).flatMap g = l.flatMap g := by
  induction l with
  | nil => rfl
  | cons a l ih =>
    by_cases ha : a = bad
    · have hq : ¬ (decide (a ≠ bad) = true) := by simpa using ha
      rw [List.filter_cons, if_neg hq, List.flatMap_cons, ih, ha, h, List.nil_append]
    · have hq : decide (a ≠ bad) = true := by simpa using ha
      rw [List.filter_cons, if_pos hq, List.flatMap_cons, List.flatMap_cons, ih]

theorem find?_filter_of_imp {α : Type} (p q : α → Bool) (h : ∀ x, p x = true → q x = true)
    (l : List α) : (l.filter q).find? p = l.find? p := by
  induction l with
  | nil => rfl
  | cons a l ih =>
    by_cases hq : q a = true
    · rw [List.filter_cons, if_pos hq, List.find?_cons, List.find?_cons, ih]
    · have hp : p a = false := by
        cases hpa : p a with
        | false => rfl
        | true => exact absurd (h a hpa) hq
      rw [List.filter_cons, if_neg hq, List.find?_cons, hp, ih]

theorem erase_filter_of_pos {α : Type} [DecidableEq α] (q : α → Bool) (d : α)
    (hd : q d = true) (l : List α) : (l.filter q).erase d = (l.erase d).filter q := by
  induction l with
  | nil => rfl
  | cons a l ih =>
    by_cases ha : a = d
    · subst ha
      rw [List.filter_cons, if_pos hd, List.erase_cons_head, List.erase_cons_head]
    · have hne : ¬ (a == d) = true := by simpa using ha
      by_cases hq : q a = true
      · rw [List.filter_cons, if_pos hq, List.erase_cons_tail hne, List.erase_cons_tail hne,
          List.filter_cons, if_pos hq, ih]
      · rw [List.filter_cons, if_neg hq, List.erase_cons_tail hne, List.filter_cons,
          if_neg hq, ih]

theorem filter_ne_erase {α : Type} [DecidableEq α] (a : α) (l : List α) :
    (l.erase a).filter (fun f => decide (f ≠ a)) = l.filter (fun f => decide (f ≠ a)) := by
  induction l with
  | nil => rfl
  | cons b l ih =>
    by_cases hb : b = a
    · subst hb
      simp [List.filter_cons]
    · have hne : ¬ (b == a) = true := by simpa using hb
      rw [List.erase_cons_tail hne, List.filter_cons, List.filter_cons, ih]

end SkippedFiles

section SkippedOrder

variable {κ : Type}

theorem sortDefaultFirst_filter (E : Engine κ) (PropFileNames : List String) (bad : String)
    (hs : SortsArray E PropFileNames)
    (hsf : SortsArray E (PropFileNames.filter (fun f => decide (f ≠ bad))))
    (hno : NoTies PropFileNames)
    (h : isDefaultFile bad = false ∨
      ∀ f ∈ PropFileNames, f ≠ bad → isDefaultFile f = false) :
    sortDefaultFirst E (PropFileNames.filter (fun f => decide (f ≠ bad))) =
      (sortDefaultFirst E PropFileNames).filter (fun f => decide (f ≠ bad)) := by
  rw [sortDefaultFirst_eq, sortDefaultFirst_eq, TArraySort_filter E _ _ hs hsf hno]
  by_cases hb : isDefaultFile bad = false
  · rw [find?_filter_of_imp isDefaultFile (fun f => decide (f ≠ bad))
      (fun x hx => by
        have : x ≠ bad := fun e => by rw [e, hb] at hx; cases hx
        simpa using this)]
    cases hd : (E.TArraySort PropFileNames).find? isDefaultFile with
    | none => rfl
    | some d =>
      have hdp : isDefaultFile d = true := List.find?_some hd
      have hne : d ≠ bad := fun e => by rw [e, hb] at hdp; cases hdp
      have hq : (fun f => decide (f ≠ bad)) d = true := by simpa using hne
      simp only
      rw [List.filter_cons, if_pos hq, erase_filter_of_pos _ d hq]
  · have hothers : ∀ f ∈ PropFileNames, f ≠ bad → isDefaultFile f = false := by
      rcases h with h | h
      · exact absurd h hb
      · exact h
    have hnone : ((E.TArraySort PropFileNames).filter (fun f => decide (f ≠ bad))).find?
        isDefaultFile = none := by
      rw [List.find?_eq_none]
      intro x hx
      have hx' := List.mem_filter.1 hx
      have hne : x ≠ bad := by simpa using hx'.2
      rw [hothers x (hs.1.mem_iff.1 hx'.1) hne]
      simp
    rw [hnone]
    cases hd : (E.TArraySort PropFileNames).find? isDefaultFile with
    | none => rfl
    | some d =>
      have hdp : isDefaultFile d = true := List.find?_some hd
      have hdm : d ∈ PropFileNames :=
        hs.1.mem_iff.1 (List.mem_of_find?_eq_some hd)
      have hdb : d = bad := by
        by_contra hne
        rw [hothers d hdm hne] at hdp
        cases hdp
      subst hdb
      simp only
      rw [List.filter_cons]
      simp only [ne_eq, not_true_eq_false, decide_False, Bool.false_eq_true, if_false]
      exact (filter_ne_erase d _).symm

end SkippedOrder

section SkippedMerge

variable {κ : Type} [DecidableEq κ]

theorem loadedProps_eq_foldl_files (E : Engine κ) (files : List String) :
    (files.foldl (loadFile E) ([], [])).1 =
      (files.flatMap (fileRecords E)).foldl (upsertParams E.key) [] := by
  rw [foldl_loadFile]
  exact (foldl_addOrUpdateParams E.key _ ([], []) (IndexOK_nil E.key)).1

end SkippedMerge

/-! ## Claims about skipped files -/

section SkippedTheorems

variable {κ : Type} [DecidableEq κ]

/-- C12, as stated, fails: the default file is present but does not parse, `Extra` defines
`bench` as `Big` (3) and `MyDefault` defines it as `Small` (1).  With the broken file in
the list the result has `Small`; with the broken file removed from the list `MyDefault` is
moved to the front and the result has `Big`. -/
theorem removing_broken_file_changes_result :
    brokenDefaultEngine.LoadFileToString demoDefaultPath = some "not json" ∧
      brokenDefaultEngine.Deserialize "not json" = none ∧
      sortDefaultFirst brokenDefaultEngine [demoDefaultPath, demoExtraPath, demoLatePath] =
        [demoDefaultPath, demoExtraPath, demoLatePath] ∧
      sortDefaultFirst brokenDefaultEngine [demoExtraPath, demoLatePath] =
        [demoLatePath, demoExtraPath] ∧
      loadedProps brokenDefaultEngine [demoDefaultPath, demoExtraPath, demoLatePath] =
        [{ Name := "bench", Mesh := some ⟨"/Game/Bench"⟩, Size := 1 }] ∧
      loadedProps brokenDefaultEngine [demoExtraPath, demoLatePath] =
        [{ Name := "bench", Mesh := some ⟨"/Game/Bench"⟩, Size := 3 }] :=
  ⟨rfl, rfl, by decide, by decide, by decide, by decide⟩

/-- C12, amended: a file that cannot be read, cannot be parsed, or parses without a
`definitions` array contributes no record, and the load goes on: the loader's result is
the result of merging the other files in the same processing order.  It is the result of
loading the list without that file whenever the sort leaves both lists in ascending order,
no two paths of the list differ only in letter case, and either the path of the skipped
file does not contain the token `Default` in any letter case, or no other path does. -/
theorem loadedProps_skips_file (E : Engine κ) (PropFileNames : List String) (bad : String)
    (hbad : E.LoadFileToString bad = none ∨
      (∃ text, E.LoadFileToString bad = some text ∧ E.Deserialize text = none) ∨
      (∃ text o, E.LoadFileToString bad = some text ∧ E.Deserialize text = some o ∧
        ∀ items, TMapFind E.key o CommonAttributes.DEFINITIONS ≠
          some (FJsonValue.array items))) :
    fileRecords E bad = [] ∧
      (∀ state, loadFile E state bad = state) ∧
      loadedProps E PropFileNames =
        (((sortDefaultFirst E PropFileNames).filter (fun f => decide (f ≠ bad))).foldl
          (loadFile E) ([], [])).1 ∧
      (SortsArray E PropFileNames →
        SortsArray E (PropFileNames.filter (fun f => decide (f ≠ bad))) →
        NoTies PropFileNames →
        (FStringContains bad CommonAttributes.DEFAULT = false ∨
          ∀ f ∈ PropFileNames, f ≠ bad →
            FStringContains f CommonAttributes.DEFAULT = false) →
        loadedProps E PropFileNames =
          loadedProps E (PropFileNames.filter (fun f => decide (f ≠ bad)))) := by
  have hdefs := fileDefinitions_eq_nil E bad hbad
  have hrec : fileRecords E bad = [] := by
    unfold fileRecords
    rw [hdefs]
    rfl
  have hmain : loadedProps E PropFileNames =
      (((sortDefaultFirst E PropFileNames).filter (fun f => decide (f ≠ bad))).foldl
        (loadFile E) ([], [])).1 := by
    rw [loadedProps_eq_foldl_files, flatMap_filter_of_nil _ bad hrec, loadedProps_eq]
    rfl
  refine ⟨hrec, ?_, hmain, ?_⟩
  · intro state
    unfold loadFile
    rw [hdefs]
    rfl
  · intro hs hsf hno h
    rw [hmain]
    unfold loadedProps
    rw [sortDefaultFirst_filter E PropFileNames bad hs hsf hno h]

/-- The hypothesis of `loadedProps_skips_file` holds for the broken default file: next to
`Extra` and `MyDefault` the result is the merge of `Extra` and `MyDefault` in that order;
next to `Extra` and `user`, of which neither contains the token, the result is that of
loading `Extra` and `user` alone. -/
theorem loadedProps_skips_file_witness :
    loadedProps brokenDefaultEngine [demoDefaultPath, demoExtraPath, demoLatePath] =
        ([demoExtraPath, demoLatePath].foldl (loadFile brokenDefaultEngine) ([], [])).1 ∧
      loadedProps brokenDefaultEngine [demoDefaultPath, demoExtraPath, demoUserPath] =
        loadedProps brokenDefaultEngine [demoExtraPath, demoUserPath] :=
  ⟨(loadedProps_skips_file brokenDefaultEngine [demoDefaultPath, demoExtraPath, demoLatePath]
    demoDefaultPath (Or.inr (Or.inl ⟨"not json", rfl, rfl⟩))).2.2.1.trans
    (by decide),
  (loadedProps_skips_file brokenDefaultEngine [demoDefaultPath, demoExtraPath, demoUserPath]
    demoDefaultPath (Or.inr (Or.inl ⟨"not json", rfl, rfl⟩))).2.2.2
    (by
      unfold SortsArray Ascending
      decide)
    (by
      unfold SortsArray Ascending
      decide)
    (by
      unfold NoTies
      decide)
    (Or.inr (by decide))⟩

end SkippedTheorems

/-! ## Positions that a merge touches and leaves -/

section FrameFacts

variable {κ : Type} [DecidableEq κ]

theorem lastPos_of_last_occurrence {c : κ} {ks : List κ} {i : Nat}
    (hi : ks[i]? = some c) (hlast : ∀ j, i < j → ks[j]? ≠ some c) :
    lastPos c ks = some i := by
  induction ks generalizing i with
  | nil => simp at hi
  | cons d ks ih =>
    cases i with
    | zero =>
      have hd : d = c := by simpa using hi
      have hnot : c ∉ ks := by
        intro hc
        obtain ⟨j, hj, hjc⟩ := List.getElem_of_mem hc
        have := hlast (j + 1) (Nat.succ_pos j)
        rw [List.getElem?_cons_succ, List.getElem?_eq_getElem hj, hjc] at this
        exact this rfl
      rw [lastPos_cons_of_none ((lastPos_eq_none_iff c ks).2 hnot), if_pos hd]
    | succ i =>
      have hi' : ks[i]? = some c := by simpa using hi
      have hlast' : ∀ j, i < j → ks[j]? ≠ some c := by
        intro j hj
        have := hlast (j + 1) (Nat.succ_lt_succ hj)
        rwa [List.getElem?_cons_succ] at this
      rw [lastPos_cons_of_some (ih hi' hlast')]

theorem lastPos_is_last {c : κ} {ks : List κ} {i : Nat} (h : lastPos c ks = some i) :
    ∀ j, i < j → ks[j]? ≠ some c := by
  induction ks generalizing i with
  | nil => simp [lastPos] at h
  | cons d ks ih =>
    cases h' : lastPos c ks with
    | some i' =>
      rw [lastPos_cons_of_some h'] at h
      cases h
      intro j hj
      cases j with
      | zero => omega
      | succ j =>
        rw [List.getElem?_cons_succ]
        exact ih h' j (by omega)
    | none =>
      rw [lastPos_cons_of_none h'] at h
      by_cases hd : d = c
      · rw [if_pos hd] at h
        cases h
        intro j hj
        cases j with
        | zero => omega
        | succ j =>
          rw [List.getElem?_cons_succ]
          intro hjc
          have hlt : j < ks.length := by
            by_contra hge
            rw [List.getElem?_eq_none (by omega)] at hjc
            cases hjc
          rw [List.getElem?_eq_getElem hlt] at hjc
          exact (lastPos_eq_none_iff c ks).1 h' (by
            have := List.getElem_mem hlt
            rwa [Option.some.inj hjc] at this)
      · rw [if_neg hd] at h
        cases h

theorem mergeProps_singleton (E : Engine κ) (parsed : Option FJsonObject)
    (p : FPropParameters UStaticMesh) :
    mergeProps E parsed [p] = upsertProp E (baseDefinitions E parsed) p := by
  unfold mergeProps
  rw [List.foldl_cons, List.foldl_nil,
    addOrUpdateProp_fst E _ p (initialProps_IndexOK E parsed), initialProps_fst]

theorem getElem?_upsertProp_of_ne (E : Engine κ) (arr : List FJsonValue)
    (p : FPropParameters UStaticMesh) (i : Nat) (v : FJsonValue)
    (hv : arr[i]? = some v) (hne : entryKey E.key v ≠ E.key p.Name) :
    (upsertProp E arr p)[i]? = some v := by
  have hlt : i < arr.length := by
    by_contra hge
    rw [List.getElem?_eq_none (by omega)] at hv
    cases hv
  unfold upsertProp
  cases hi : lastPos (E.key p.Name) (arr.map (entryKey E.key)) with
  | some i' =>
    simp only
    have hk' := lastPos_getElem? hi
    have hii : i' ≠ i := by
      intro e
      rw [e, List.getElem?_map, hv] at hk'
      exact hne (Option.some.inj hk')
    rw [List.getElem?_set, if_neg hii, hv]
  | none =>
    simp only
    rw [List.getElem?_append_left hlt, hv]

theorem getElem?_foldl_upsertProp_of_not_mem (E : Engine κ)
    (R : List (FPropParameters UStaticMesh)) (arr : List FJsonValue) (i : Nat)
    (v : FJsonValue) (hv : arr[i]? = some v)
    (hnot : entryKey E.key v ∉ R.map (nameKey E.key)) :
    (R.foldl (upsertProp E) arr)[i]? = some v := by
  induction R generalizing arr with
  | nil => exact hv
  | cons p R ih =>
    rw [List.map_cons, List.mem_cons, not_or] at hnot
    rw [List.foldl_cons]
    exact ih _ (getElem?_upsertProp_of_ne E arr p i v hv hnot.1) hnot.2

theorem TMapAdd_filter_of_reject {V : Type} (key : String → κ) (q : String → Bool)
    (m : TMap V) (k : String) (v : V) (hq : ∀ f, key f = key k → q f = false) :
    (TMapAdd key m k v).filter (fun e => q e.1) = m.filter (fun e => q e.1) := by
  induction m with
  | nil =>
    have : q k = false := hq k rfl
    simp [TMapAdd, List.filter_cons, this]
  | cons e m ih =>
    obtain ⟨a, b⟩ := e
    by_cases h : key a = key k
    · have h1 : q a = false := hq a h
      have h2 : q k = false := hq k rfl
      rw [TMapAdd, if_pos h, List.filter_cons, List.filter_cons]
      simp only [h1, h2, Bool.false_eq_true, if_false]
    · rw [TMapAdd, if_neg h, List.filter_cons, List.filter_cons, ih]

theorem isOtherField_eq_false_of_name (key : String → κ) (f : String)
    (h : key f = key PropAttributes.NAME) : isOtherField key f = false := by
  simp [isOtherField, h]

theorem isOtherField_eq_false_of_path (key : String → κ) (f : String)
    (h : key f = key PropAttributes.MESH_PATH) : isOtherField key f = false := by
  simp [isOtherField, h]

theorem isOtherField_eq_false_of_size (key : String → κ) (f : String)
    (h : key f = key PropAttributes.SIZE) : isOtherField key f = false := by
  simp [isOtherField, h]

theorem otherFields_fillPropJson (E : Engine κ) (o : FJsonObject)
    (p : FPropParameters UStaticMesh) :
    otherFields E.key (fillPropJson E o p) = otherFields E.key o := by
  unfold otherFields fillPropJson SetStringField
  simp only
  rw [TMapAdd_filter_of_reject E.key (isOtherField E.key) _ _ _
      (isOtherField_eq_false_of_size E.key),
    TMapAdd_filter_of_reject E.key (isOtherField E.key) _ _ _
      (isOtherField_eq_false_of_path E.key),
    TMapAdd_filter_of_reject E.key (isOtherField E.key) _ _ _
      (isOtherField_eq_false_of_name E.key)]

theorem TMapFind_fillPropJson_other (E : Engine κ) (o : FJsonObject)
    (p : FPropParameters UStaticMesh) (field : String)
    (h : isOtherField E.key field = true) :
    TMapFind E.key (fillPropJson E o p) field = TMapFind E.key o field := by
  simp only [isOtherField, decide_eq_true_eq] at h
  unfold fillPropJson SetStringField
  simp only
  rw [TMapFind_TMapAdd, if_neg (Ne.symm h.2.2), TMapFind_TMapAdd, if_neg (Ne.symm h.2.1),
    TMapFind_TMapAdd, if_neg (Ne.symm h.1)]

theorem otherFields_upsertProp (E : Engine κ) (arr : List FJsonValue)
    (p : FPropParameters UStaticMesh) (i : Nat) (v : FJsonValue) (hv : arr[i]? = some v) :
    ∃ v', (upsertProp E arr p)[i]? = some v' ∧
      otherFields E.key (AsObject v') = otherFields E.key (AsObject v) := by
  have hlt : i < arr.length := by
    by_contra hge
    rw [List.getElem?_eq_none (by omega)] at hv
    cases hv
  unfold upsertProp
  cases hi : lastPos (E.key p.Name) (arr.map (entryKey E.key)) with
  | some i' =>
    simp only
    by_cases hii : i' = i
    · subst hii
      refine ⟨_, by rw [List.getElem?_set, if_pos rfl, if_pos hlt], ?_⟩
      rw [AsObject, otherFields_fillPropJson, List.getD_eq_getElem?_getD, hv]
      rfl
    · exact ⟨v, by rw [List.getElem?_set, if_neg hii, hv], rfl⟩
  | none =>
    simp only
    exact ⟨v, by rw [List.getElem?_append_left hlt, hv], rfl⟩

theorem otherFields_foldl_upsertProp (E : Engine κ) (R : List (FPropParameters UStaticMesh))
    (arr : List FJsonValue) (i : Nat) (v : FJsonValue) (hv : arr[i]? = some v) :
    ∃ v', (R.foldl (upsertProp E) arr)[i]? = some v' ∧
      otherFields E.key (AsObject v') = otherFields E.key (AsObject v) := by
  induction R generalizing arr v with
  | nil => exact ⟨v, hv, rfl⟩
  | cons p R ih =>
    obtain ⟨v1, h1, e1⟩ := otherFields_upsertProp E arr p i v hv
    obtain ⟨v2, h2, e2⟩ := ih _ v1 h1
    exact ⟨v2, by rw [List.foldl_cons]; exact h2, e2.trans e1⟩

theorem TMapFind_eq_of_otherFields {V : Type} (key : String → κ) (a b : TMap V)
    (field : String) (hf : isOtherField key field = true)
    (h : a.filter (fun e => isOtherField key e.1) = b.filter (fun e => isOtherField key e.1)) :
    TMapFind key a field = TMapFind key b field := by
  have aux : ∀ m : TMap V,
      TMapFind key m field = TMapFind key (m.filter (fun e => isOtherField key e.1)) field := by
    intro m
    induction m with
    | nil => rfl
    | cons e m ih =>
      obtain ⟨k, v⟩ := e
      by_cases hq : isOtherField key k = true
      · rw [List.filter_cons, if_pos hq, TMapFind, TMapFind, ih]
      · have hne : ¬ key k = key field := by
          intro e
          apply hq
          simp only [isOtherField, decide_eq_true_eq] at hf ⊢
          rw [e]
          exact hf
        rw [List.filter_cons, if_neg hq, TMapFind, if_neg hne, ih]
  rw [aux a, aux b, h]

theorem foldl_addOrUpdateProp_IndexOK (E : Engine κ) (hk : FieldKeysDistinct E.key)
    (ps : List (FPropParameters UStaticMesh)) (state : List FJsonValue × TMap Nat)
    (h : IndexOK E.key (state.1.map (entryKey E.key)) state.2) :
    IndexOK E.key ((ps.foldl (addOrUpdateProp E) state).1.map (entryKey E.key))
      (ps.foldl (addOrUpdateProp E) state).2 := by
  induction ps generalizing state with
  | nil => exact h
  | cons p ps ih =>
    rw [List.foldl_cons]
    exact ih _ (addOrUpdateProp_IndexOK E hk state p h)

theorem IndexOK_valid {α : Type} (key : String → κ) (f : α → κ) (arr : List α)
    (idx : TMap Nat) (h : IndexOK key (arr.map f) idx) (k : String) (i : Nat)
    (hi : TMapFind key idx k = some i) :
    ∃ v, arr[i]? = some v ∧ f v = key k := by
  rw [h k] at hi
  have h1 := lastPos_getElem? hi
  rw [List.getElem?_map] at h1
  cases hv : arr[i]? with
  | none => rw [hv] at h1; cases h1
  | some v =>
    rw [hv] at h1
    exact ⟨v, rfl, Option.some.inj h1⟩

theorem map_key_TMapAdd {V : Type} (key : String → κ) (m : TMap V) (k : String) (v : V) :
    (TMapAdd key m k v).map (fun e => key e.1) =
      if key k ∈ m.map (fun e => key e.1) then m.map (fun e => key e.1)
      else m.map (fun e => key e.1) ++ [key k] := by
  induction m with
  | nil => simp [TMapAdd]
  | cons e m ih =>
    obtain ⟨a, b⟩ := e
    by_cases h : key a = key k
    · have hmem : key k ∈ ((a, b) :: m).map (fun e => key e.1) := by
        rw [List.map_cons, ← h]
        exact List.mem_cons_self _ _
      rw [if_pos hmem, TMapAdd, if_pos h, List.map_cons, List.map_cons, h]
    · rw [TMapAdd, if_neg h, List.map_cons, ih, List.map_cons]
      by_cases hm : key k ∈ m.map (fun e => key e.1)
      · rw [if_pos hm, if_pos (List.mem_cons_of_mem _ hm)]
      · have hm' : key k ∉ key a :: m.map (fun e => key e.1) := by
          intro hc
          rcases List.mem_cons.1 hc with hc | hc
          · exact h hc.symm
          · exact hm hc
        rw [if_neg hm, if_neg hm', List.cons_append]

theorem TMapAdd_keys_nodup {V : Type} (key : String → κ) (m : TMap V) (k : String) (v : V)
    (h : (m.map (fun e => key e.1)).Nodup) :
    ((TMapAdd key m k v).map (fun e => key e.1)).Nodup := by
  rw [map_key_TMapAdd]
  by_cases hm : key k ∈ m.map (fun e => key e.1)
  · rw [if_pos hm]
    exact h
  · rw [if_neg hm, List.nodup_append]
    refine ⟨h, List.nodup_singleton _, ?_⟩
    intro x hx hx'
    rw [List.mem_singleton] at hx'
    exact hm (hx' ▸ hx)

theorem TMapFind_of_mem {V : Type} (key : String → κ) (m : TMap V) (k : String) (v : V)
    (hnd : (m.map (fun e => key e.1)).Nodup) (hmem : (k, v) ∈ m) :
    TMapFind key m k = some v := by
  induction m with
  | nil => cases hmem
  | cons e m ih =>
    obtain ⟨a, b⟩ := e
    rw [List.map_cons, List.nodup_cons] at hnd
    rcases List.mem_cons.1 hmem with h | h
    · cases h
      rw [TMapFind, if_pos rfl]
    · have hne : ¬ key a = key k := by
        intro e
        apply hnd.1
        rw [e]
        exact List.mem_map.2 ⟨(k, v), h, rfl⟩
      rw [TMapFind, if_neg hne, ih hnd.2 h]

theorem buildPropIndexes_keys_nodup (key : String → κ) (arr : List FJsonValue) (i : Nat)
    (idx : TMap Nat) (h : (idx.map (fun e => key e.1)).Nodup) :
    ((buildPropIndexes key arr i idx).map (fun e => key e.1)).Nodup := by
  induction arr generalizing i idx with
  | nil => exact h
  | cons v rest ih =>
    rw [buildPropIndexes]
    exact ih _ _ (TMapAdd_keys_nodup key idx _ _ h)

theorem initialProps_keys_nodup (E : Engine κ) (parsed : Option FJsonObject) :
    ((initialProps E parsed).2.map (fun e => E.key e.1)).Nodup := by
  cases parsed with
  | none => exact List.nodup_nil
  | some o => exact buildPropIndexes_keys_nodup E.key _ 0 [] List.nodup_nil

theorem addOrUpdateProp_keys_nodup (E : Engine κ) (state : List FJsonValue × TMap Nat)
    (p : FPropParameters UStaticMesh) (h : (state.2.map (fun e => E.key e.1)).Nodup) :
    ((addOrUpdateProp E state p).2.map (fun e => E.key e.1)).Nodup := by
  unfold addOrUpdateProp
  cases TMapFind E.key state.2 p.Name with
  | some i => exact h
  | none => exact TMapAdd_keys_nodup E.key _ _ _ h

theorem foldl_addOrUpdateProp_keys_nodup (E : Engine κ)
    (ps : List (FPropParameters UStaticMesh)) (state : List FJsonValue × TMap Nat)
    (h : (state.2.map (fun e => E.key e.1)).Nodup) :
    ((ps.foldl (addOrUpdateProp E) state).2.map (fun e => E.key e.1)).Nodup := by
  induction ps generalizing state with
  | nil => exact h
  | cons p ps ih =>
    rw [List.foldl_cons]
    exact ih _ (addOrUpdateProp_keys_nodup E state p h)

theorem addOrUpdateParams_keys_nodup (key : String → κ)
    (state : List LoadedProp × TMap Nat) (p : LoadedProp)
    (h : (state.2.map (fun e => key e.1)).Nodup) :
    ((addOrUpdateParams key state p).2.map (fun e => key e.1)).Nodup := by
  unfold addOrUpdateParams
  cases TMapFind key state.2 p.Name with
  | some i => exact h
  | none => exact TMapAdd_keys_nodup key _ _ _ h

theorem foldl_addOrUpdateParams_keys_nodup (key : String → κ) (ps : List LoadedProp)
    (state : List LoadedProp × TMap Nat) (h : (state.2.map (fun e => key e.1)).Nodup) :
    ((ps.foldl (addOrUpdateParams key) state).2.map (fun e => key e.1)).Nodup := by
  induction ps generalizing state with
  | nil => exact h
  | cons p ps ih =>
    rw [List.foldl_cons]
    exact ih _ (addOrUpdateParams_keys_nodup key state p h)

end FrameFacts

/-! ## Claims about positions, frames and composition -/

section FrameTheorems

variable {κ : Type} [DecidableEq κ]

/-- C15, as stated, fails: in a base that holds `bench` at positions 0 and 1 the index
resolves `bench` to position 1, and an incoming `bench` record replaces the entry at
position 1 and leaves the first occurrence as it was. -/
theorem index_resolves_to_last_occurrence :
    TMapFind id (initialProps (demoEngine [] [] true) (some duplicateBase)).2 "bench" =
        some 1 ∧
      mergeProps (demoEngine [] [] true) (some duplicateBase)
          [⟨"bench", ⟨"/Game/Bench2"⟩, 3⟩] =
        [demoEntry "bench" "/Game/Bench" "Small", demoEntry "bench" "/Game/Bench2" "Big"] :=
  ⟨by decide, rfl⟩

/-- C15, amended: for every base document, the writer's index resolves a name to the last
position at which the definitions array holds it (position `i` holds it and no later
position does): an incoming record with that name replaces the entry at that last
occurrence, by the existing object with the three fields set, and leaves every other
position, earlier occurrences included, unchanged. -/
theorem index_resolves_to_last_position (E : Engine κ) (d : FJsonObject)
    (p : FPropParameters UStaticMesh) (i : Nat)
    (hi : ((GetArrayField E.key d CommonAttributes.DEFINITIONS).map (entryKey E.key))[i]? =
      some (E.key p.Name))
    (hlast : ∀ j, i < j →
      ((GetArrayField E.key d CommonAttributes.DEFINITIONS).map (entryKey E.key))[j]? ≠
        some (E.key p.Name)) :
    TMapFind E.key (initialProps E (some d)).2 p.Name = some i ∧
      mergeProps E (some d) [p] =
        (GetArrayField E.key d CommonAttributes.DEFINITIONS).set i
          (FJsonValue.object (fillPropJson E
            (AsObject ((GetArrayField E.key d CommonAttributes.DEFINITIONS).getD i .null)) p)) ∧
      ∀ j, j ≠ i →
        (mergeProps E (some d) [p])[j]? =
          (GetArrayField E.key d CommonAttributes.DEFINITIONS)[j]? := by
  have hpos := lastPos_of_last_occurrence hi hlast
  have hmerge : mergeProps E (some d) [p] =
      (GetArrayField E.key d CommonAttributes.DEFINITIONS).set i
        (FJsonValue.object (fillPropJson E
          (AsObject ((GetArrayField E.key d CommonAttributes.DEFINITIONS).getD i .null)) p)) := by
    have hpos' : lastPos (E.key p.Name)
        ((baseDefinitions E (some d)).map (entryKey E.key)) = some i := hpos
    rw [mergeProps_singleton]
    unfold upsertProp
    rw [hpos']
    rfl
  refine ⟨?_, hmerge, ?_⟩
  · rw [initialProps_IndexOK E (some d) p.Name]
    exact hpos
  · intro j hj
    rw [hmerge, List.getElem?_set, if_neg (Ne.symm hj)]

/-- The hypotheses of `index_resolves_to_last_position` hold for the base with `bench` at
positions 0 and 1 and `i = 1`: position 0 is unchanged. -/
theorem index_resolves_to_last_position_witness :
    TMapFind id (initialProps (demoEngine [] [] true) (some duplicateBase)).2 "bench" =
        some 1 ∧
      (mergeProps (demoEngine [] [] true) (some duplicateBase)
          [⟨"bench", ⟨"/Game/Bench2"⟩, 3⟩])[0]? =
        (GetArrayField id duplicateBase CommonAttributes.DEFINITIONS)[0]? := by
  have hw := index_resolves_to_last_position (demoEngine [] [] true) duplicateBase
    ⟨"bench", ⟨"/Game/Bench2"⟩, 3⟩ 1 (by decide)
    (fun j hj => by
      have h2 : (List.map (entryKey (demoEngine [] [] true).key)
          (GetArrayField (demoEngine [] [] true).key duplicateBase
            CommonAttributes.DEFINITIONS)).length = 2 := rfl
      rw [List.getElem?_eq_none (by omega)]
      exact fun h => nomatch h)
  exact ⟨hw.1, hw.2.2 0 (by decide)⟩

/-- C16: for every base document and every list of incoming records, every entry of the
base definitions array whose name does not occur among the incoming records (as names are
compared by the index) stands in the writer's output at the same index with the same JSON
content.  The three field names are assumed pairwise different as keys of a JSON object. -/
theorem mergedDocument_untouched_entries (E : Engine κ) (hk : FieldKeysDistinct E.key)
    (d : Option FJsonObject) (R : List (FPropParameters UStaticMesh)) (i : Nat)
    (v : FJsonValue) (hv : (baseDefinitions E d)[i]? = some v)
    (hnot : ∀ q ∈ R,
      E.key q.Name ≠ E.key (GetStringField E.key (AsObject v) PropAttributes.NAME)) :
    (GetArrayField E.key (mergedDocument E d R) CommonAttributes.DEFINITIONS)[i]? = some v := by
  rw [definitions_mergedDocument, mergeProps_eq E hk]
  apply getElem?_foldl_upsertProp_of_not_mem E R _ i v hv
  intro hmem
  obtain ⟨q, hq, hqk⟩ := List.mem_map.1 hmem
  exact hnot q hq hqk

/-- The hypotheses of `mergedDocument_untouched_entries` hold for the entry `tree` when
`bench` and `lamp` are merged: it stays at index 1 with its extra field. -/
theorem mergedDocument_untouched_entries_witness :
    (GetArrayField id
        (mergedDocument (demoEngine [] [] true) (some taggedBase)
          [⟨"bench", ⟨"/Game/Bench2"⟩, 3⟩, ⟨"lamp", ⟨"/Game/Lamp"⟩, 0⟩])
        CommonAttributes.DEFINITIONS)[1]? =
      some (.object [("name", .string "tree"), ("tags", .string "park"),
        ("path", .string "/Game/Tree"), ("size", .string "Huge")]) :=
  mergedDocument_untouched_entries (demoEngine [] [] true)
    (FieldKeysDistinct_demoEngine [] [] true) (some taggedBase)
    [⟨"bench", ⟨"/Game/Bench2"⟩, 3⟩, ⟨"lamp", ⟨"/Game/Lamp"⟩, 0⟩] 1 _ rfl
    (by decide)

/-- C17, as stated, fails: `A.PropRegistry.json` and `a.PropRegistry.json` are different
paths that compare equal, and the sort, which is not stable, leaves them in an order that
depends on the order in which they were enumerated.  For the two enumerations of these two
paths the sort leaves an ascending array each time, the processing orders differ, and so
does the merged collection: `bench` ends as `Small` (1) for one and as `Big` (3) for the
other. -/
theorem tied_paths_depend_on_enumeration :
    [demoUpperAPath, demoLowerAPath].Perm [demoLowerAPath, demoUpperAPath] ∧
      demoUpperAPath ≠ demoLowerAPath ∧
      FStringLess demoUpperAPath demoLowerAPath = false ∧
      FStringLess demoLowerAPath demoUpperAPath = false ∧
      Ascending (caseTieEngine.TArraySort [demoUpperAPath, demoLowerAPath]) ∧
      Ascending (caseTieEngine.TArraySort [demoLowerAPath, demoUpperAPath]) ∧
      sortDefaultFirst caseTieEngine [demoUpperAPath, demoLowerAPath] =
        [demoLowerAPath, demoUpperAPath] ∧
      sortDefaultFirst caseTieEngine [demoLowerAPath, demoUpperAPath] =
        [demoUpperAPath, demoLowerAPath] ∧
      loadedProps caseTieEngine [demoUpperAPath, demoLowerAPath] =
        [{ Name := "bench", Mesh := some ⟨"/Game/Bench"⟩, Size := 1 }] ∧
      loadedProps caseTieEngine [demoLowerAPath, demoUpperAPath] =
        [{ Name := "bench", Mesh := some ⟨"/Game/Bench"⟩, Size := 3 }] := by
  unfold Ascending
  decide

/-- C17, amended: for every two lists of discovered file paths that are permutations of
each other and in which no two different paths differ only in letter case, when the sort
leaves both in ascending order, the loader's processing order is the same for both, and so
is the merged collection of records, whatever the files contain. -/
theorem sortDefaultFirst_perm (E : Engine κ) (names₁ names₂ : List String)
    (hs₁ : SortsArray E names₁) (hs₂ : SortsArray E names₂) (hno : NoTies names₁)
    (h : names₁.Perm names₂) :
    sortDefaultFirst E names₁ = sortDefaultFirst E names₂ ∧
      loadedProps E names₁ = loadedProps E names₂ := by
  have hs : sortDefaultFirst E names₁ = sortDefaultFirst E names₂ := by
    unfold sortDefaultFirst
    rw [TArraySort_eq_of_perm E hs₁ hs₂ hno h]
  refine ⟨hs, ?_⟩
  unfold loadedProps
  rw [hs]

/-- The hypotheses of `sortDefaultFirst_perm` hold for the user file and the default file
in either order. -/
theorem sortDefaultFirst_perm_witness :
    sortDefaultFirst orderEngine [demoUserPath, demoDefaultPath] =
        sortDefaultFirst orderEngine [demoDefaultPath, demoUserPath] ∧
      loadedProps orderEngine [demoUserPath, demoDefaultPath] =
        loadedProps orderEngine [demoDefaultPath, demoUserPath] :=
  sortDefaultFirst_perm orderEngine [demoUserPath, demoDefaultPath]
    [demoDefaultPath, demoUserPath]
    (by
      unfold SortsArray Ascending
      decide)
    (by
      unfold SortsArray Ascending
      decide)
    (by
      unfold NoTies
      decide)
    (List.Perm.swap _ _ _)

/-- C18: for every base document `d` (parsed or not) and every two lists `R1` and `R2` of
incoming records, merging `R2` into the document that results from merging `R1` into `d`
yields the same document as merging `R1 ++ R2` into `d`.  The three field names are assumed
pairwise different as keys of a JSON object. -/
theorem mergedDocument_append (E : Engine κ) (hk : FieldKeysDistinct E.key)
    (d : Option FJsonObject) (R1 R2 : List (FPropParameters UStaticMesh)) :
    mergedDocument E (some (mergedDocument E d R1)) R2 = mergedDocument E d (R1 ++ R2) := by
  rw [mergedDocument_eq E hk (some (mergedDocument E d R1)), baseDefinitions_mergedDocument,
    mergeProps_eq E hk, ← List.foldl_append, mergedDocument_eq E hk d, mergedDocument_eq E hk d]
  simp only [Option.getD_some, SetArrayField]
  rw [TMapAdd_TMapAdd]

/-- The hypothesis of `mergedDocument_append` holds for verbatim comparison: an instance
with `bench` merged first and `lamp`, `bench` merged second. -/
theorem mergedDocument_append_witness :
    mergedDocument (demoEngine [] [] true)
        (some (mergedDocument (demoEngine [] [] true) (some taggedBase)
          [⟨"bench", ⟨"/Game/Bench2"⟩, 3⟩]))
        [⟨"lamp", ⟨"/Game/Lamp"⟩, 0⟩, ⟨"bench", ⟨"/Game/Bench3"⟩, 2⟩] =
      mergedDocument (demoEngine [] [] true) (some taggedBase)
        ([⟨"bench", ⟨"/Game/Bench2"⟩, 3⟩] ++
          [⟨"lamp", ⟨"/Game/Lamp"⟩, 0⟩, ⟨"bench", ⟨"/Game/Bench3"⟩, 2⟩]) :=
  mergedDocument_append (demoEngine [] [] true) (FieldKeysDistinct_demoEngine [] [] true)
    (some taggedBase) [⟨"bench", ⟨"/Game/Bench2"⟩, 3⟩]
    [⟨"lamp", ⟨"/Game/Lamp"⟩, 0⟩, ⟨"bench", ⟨"/Game/Bench3"⟩, 2⟩]

/-- C19: filling an existing JSON object with a record changes only its `name`, `path` and
`size` fields: the other fields are the same, with the same values and order, and each of
them reads the same.  So for every base document and every list of incoming records, the
entry at every position of the base definitions array, updated or not, carries in the
output the other fields it carried in the base; `tree` keeps its field `tags` when it is
updated.  The three field names are assumed pairwise different as keys of a JSON object. -/
theorem mergedDocument_keeps_other_fields (E : Engine κ) (hk : FieldKeysDistinct E.key)
    (d : Option FJsonObject) (R : List (FPropParameters UStaticMesh)) :
    (∀ (o : FJsonObject) (p : FPropParameters UStaticMesh),
      otherFields E.key (fillPropJson E o p) = otherFields E.key o ∧
        ∀ field, isOtherField E.key field = true →
          TMapFind E.key (fillPropJson E o p) field = TMapFind E.key o field) ∧
    (∀ (i : Nat) (v : FJsonValue), (baseDefinitions E d)[i]? = some v →
      ∃ v' : FJsonValue,
        (GetArrayField E.key (mergedDocument E d R) CommonAttributes.DEFINITIONS)[i]? =
          some v' ∧
        otherFields E.key (AsObject v') = otherFields E.key (AsObject v) ∧
        ∀ field, isOtherField E.key field = true →
          TMapFind E.key (AsObject v') field = TMapFind E.key (AsObject v) field) ∧
    mergeProps (demoEngine [] [] true) (some taggedBase) [⟨"tree", ⟨"/Game/Tree2"⟩, 3⟩] =
      [demoEntry "bench" "/Game/Bench" "Small",
        .object [("name", .string "tree"), ("tags", .string "park"),
          ("path", .string "/Game/Tree2"), ("size", .string "Big")]] := by
  refine ⟨?_, ?_, rfl⟩
  · intro o p
    exact ⟨otherFields_fillPropJson E o p,
      fun field hf => TMapFind_fillPropJson_other E o p field hf⟩
  · intro i v hv
    rw [definitions_mergedDocument, mergeProps_eq E hk]
    obtain ⟨v', h1, h2⟩ := otherFields_foldl_upsertProp E R _ i v hv
    exact ⟨v', h1, h2, fun field hf => TMapFind_eq_of_otherFields E.key _ _ field hf h2⟩

/-- The hypothesis of `mergedDocument_keeps_other_fields` holds for verbatim comparison:
after `tree` and `lamp` are merged, the entry at index 1 still reads `park` for `tags`. -/
theorem mergedDocument_keeps_other_fields_witness :
    ∃ v' : FJsonValue, (GetArrayField id
          (mergedDocument (demoEngine [] [] true) (some taggedBase)
            [⟨"tree", ⟨"/Game/Tree2"⟩, 3⟩, ⟨"lamp", ⟨"/Game/Lamp"⟩, 0⟩])
          CommonAttributes.DEFINITIONS)[1]? = some v' ∧
      TMapFind id (AsObject v') "tags" = some (.string "park") := by
  obtain ⟨v', h1, _, h3⟩ :=
    (mergedDocument_keeps_other_fields (demoEngine [] [] true)
      (FieldKeysDistinct_demoEngine [] [] true) (some taggedBase)
      [⟨"tree", ⟨"/Game/Tree2"⟩, 3⟩, ⟨"lamp", ⟨"/Game/Lamp"⟩, 0⟩]).2.1 1 _ rfl
  exact ⟨v', h1, (h3 "tags" (by decide)).trans rfl⟩

/-- C20: after every number of iterations of the writer's merge loop (the state reached on
`R` is the state after `R.length` iterations, and `R` is arbitrary) and after every record
and every file of the loader's fold, every pair `(name, position)` stored in the index has a
position that is a valid index of the current array, and the entry there carries that name,
as names are compared by the index; so the indexed replacements are in range.  For the
writer the three field names are assumed pairwise different as keys of a JSON object. -/
theorem index_positions_valid (E : Engine κ) (hk : FieldKeysDistinct E.key)
    (d : Option FJsonObject) (R : List (FPropParameters UStaticMesh))
    (records : List (FPropParameters (Option UStaticMesh))) (files : List String) :
    (∀ k i, (k, i) ∈ (R.foldl (addOrUpdateProp E) (initialProps E d)).2 →
      ∃ v : FJsonValue, (R.foldl (addOrUpdateProp E) (initialProps E d)).1[i]? = some v ∧
        E.key (GetStringField E.key (AsObject v) PropAttributes.NAME) = E.key k) ∧
    (∀ k i, (k, i) ∈ (records.foldl (addOrUpdateParams E.key) ([], [])).2 →
      ∃ r, (records.foldl (addOrUpdateParams E.key) ([], [])).1[i]? = some r ∧
        E.key r.Name = E.key k) ∧
    (∀ k i, (k, i) ∈ (files.foldl (loadFile E) ([], [])).2 →
      ∃ r, (files.foldl (loadFile E) ([], [])).1[i]? = some r ∧ E.key r.Name = E.key k) := by
  refine ⟨?_, ?_, ?_⟩
  · intro k i hi
    exact IndexOK_valid E.key (entryKey E.key) _ _
      (foldl_addOrUpdateProp_IndexOK E hk R _ (initialProps_IndexOK E d)) k i
      (TMapFind_of_mem E.key _ k i
        (foldl_addOrUpdateProp_keys_nodup E R _ (initialProps_keys_nodup E d)) hi)
  · intro k i hi
    exact IndexOK_valid E.key (nameKey E.key) _ _
      (foldl_addOrUpdateParams E.key records ([], []) (IndexOK_nil E.key)).2 k i
      (TMapFind_of_mem E.key _ k i
        (foldl_addOrUpdateParams_keys_nodup E.key records ([], []) List.nodup_nil) hi)
  · intro k i hi
    rw [foldl_loadFile] at hi ⊢
    exact IndexOK_valid E.key (nameKey E.key) _ _
      (foldl_addOrUpdateParams E.key _ ([], []) (IndexOK_nil E.key)).2 k i
      (TMapFind_of_mem E.key _ k i
        (foldl_addOrUpdateParams_keys_nodup E.key _ ([], []) List.nodup_nil) hi)

/-- The hypothesis of `index_positions_valid` holds for verbatim comparison: after `lamp`
and `bench` are merged into the base with `bench` and `tree`, the position stored for
`lamp` holds an entry named `lamp`. -/
theorem index_positions_valid_witness :
    ∃ v : FJsonValue, (List.foldl (addOrUpdateProp (demoEngine [] [] true))
          (initialProps (demoEngine [] [] true) (some taggedBase))
          [⟨"lamp", ⟨"/Game/Lamp"⟩, 0⟩, ⟨"bench", ⟨"/Game/Bench2"⟩, 3⟩]).1[2]? =
        some v ∧
      GetStringField id (AsObject v) PropAttributes.NAME = "lamp" :=
  (index_positions_valid (demoEngine [] [] true) (FieldKeysDistinct_demoEngine [] [] true)
    (some taggedBase) [⟨"lamp", ⟨"/Game/Lamp"⟩, 0⟩, ⟨"bench", ⟨"/Game/Bench2"⟩, 3⟩]
    [] []).1 "lamp" 2 (by decide)

end FrameTheorems

end CarlaBlueprintRegistry
